import Mathlib

/-!
# MoodyRender: coupled (energy compensated) microfacet BRDF

Shallow embedding of `src/common/material.hpp` (the coupled conductor and
coupled dielectric materials) and of the quadrature / bisection helpers of
`src/CoupledBRDFBaker/src/ofApp.cpp` (`bake`, `I`, `I_Dot`, `I_Dot_Inverse`).

Conventions of the embedding.

* A C++ `double` is an element of a linearly ordered field `K`; the theorems
  about angles instantiate `K` with the real numbers.  Rounding is not
  modelled.  Where a non-finite double decides a property, in the `pdf`
  methods and `P_spec`, in the quotient of `I_Dot` and in the sample loop of
  `bake`, a double is a `DivResult`: a number, an infinity or NaN.
* Functions of `<cmath>` / glm are the fields of `Libm`.
* Functions and tables that live in headers outside the two source files
  (`microfacet.hpp`, the baked tables) are the fields of `Microfacet` and
  `CoupledBRDF`: every theorem quantifies over them.
-/

namespace rt

/-! ## Vectors (glm::dvec3) -/

/-- Three doubles, as `glm::dvec3`. -/
structure dvec3 (K : Type) where
  x : K
  y : K
  z : K
deriving DecidableEq, Repr

namespace dvec3

variable {K : Type} [LinearOrderedField K]

/-- Value initialised vector `glm::dvec3()`: all components zero. -/
def zero : dvec3 K := ⟨0, 0, 0⟩

/-- Constructor `glm::dvec3(s)`: the scalar in every component. -/
def splat (s : K) : dvec3 K := ⟨s, s, s⟩

/-- Inner product `glm::dot`. -/
def dot (u v : dvec3 K) : K := u.x * v.x + u.y * v.y + u.z * v.z

instance : Add (dvec3 K) := ⟨fun u v => ⟨u.x + v.x, u.y + v.y, u.z + v.z⟩⟩

instance : Sub (dvec3 K) := ⟨fun u v => ⟨u.x - v.x, u.y - v.y, u.z - v.z⟩⟩

instance : Mul (dvec3 K) := ⟨fun u v => ⟨u.x * v.x, u.y * v.y, u.z * v.z⟩⟩

instance : Div (dvec3 K) := ⟨fun u v => ⟨u.x / v.x, u.y / v.y, u.z / v.z⟩⟩

instance : HMul (dvec3 K) K (dvec3 K) := ⟨fun u s => ⟨u.x * s, u.y * s, u.z * s⟩⟩

instance : HDiv (dvec3 K) K (dvec3 K) := ⟨fun u s => ⟨u.x / s, u.y / s, u.z / s⟩⟩

end dvec3

/-! ## Library functions and absent headers -/

/-- Scalar functions of `<cmath>` and the constant `glm::pi<double>()`. -/
structure Libm (K : Type) where
  pi : K
  sqrt : K → K
  cos : K → K
  sin : K → K
  acos : K → K

/-- Interpretation of the library functions over the real numbers. -/
noncomputable def realLibm : Libm ℝ where
  pi := Real.pi
  sqrt := Real.sqrt
  cos := Real.cos
  sin := Real.sin
  acos := Real.arccos

variable {K : Type} [LinearOrderedField K]

/-- Normalisation `glm::normalize(v) = v * inversesqrt(dot(v, v))`. -/
def normalize (L : Libm K) (v : dvec3 K) : dvec3 K :=
  v * (1 / L.sqrt (dvec3.dot v v))

/-! ## Doubles that may be non-finite -/

/-- Outcome of dividing two doubles: a number, or one of the non-finite
values that a zero divisor produces. -/
inductive DivResult (K : Type) where
  | finite (v : K)
  | posInf
  | negInf
  | nan
deriving DecidableEq, Repr

/-- Division `x / y` of doubles. -/
def fdiv (x y : K) : DivResult K :=
  if y = 0 then
    if 0 < x then DivResult.posInf else if x < 0 then DivResult.negInf else DivResult.nan
  else DivResult.finite (x / y)

/-- Comparison `value < u` of a quotient with a finite double. -/
def DivResult.lt (r : DivResult K) (u : K) : Bool :=
  match r with
  | DivResult.finite v => decide (v < u)
  | DivResult.negInf => true
  | DivResult.posInf => false
  | DivResult.nan => false

/-- Product `x * y` of doubles that may be non-finite: NaN propagates, zero
times an infinity is NaN, otherwise the signs multiply. -/
def DivResult.mul (x y : DivResult K) : DivResult K :=
  match x, y with
  | DivResult.nan, _ => DivResult.nan
  | _, DivResult.nan => DivResult.nan
  | DivResult.finite a, DivResult.finite b => DivResult.finite (a * b)
  | DivResult.finite a, DivResult.posInf =>
    if 0 < a then DivResult.posInf else if a < 0 then DivResult.negInf else DivResult.nan
  | DivResult.finite a, DivResult.negInf =>
    if 0 < a then DivResult.negInf else if a < 0 then DivResult.posInf else DivResult.nan
  | DivResult.posInf, DivResult.finite b =>
    if 0 < b then DivResult.posInf else if b < 0 then DivResult.negInf else DivResult.nan
  | DivResult.negInf, DivResult.finite b =>
    if 0 < b then DivResult.negInf else if b < 0 then DivResult.posInf else DivResult.nan
  | DivResult.posInf, DivResult.posInf => DivResult.posInf
  | DivResult.posInf, DivResult.negInf => DivResult.negInf
  | DivResult.negInf, DivResult.posInf => DivResult.negInf
  | DivResult.negInf, DivResult.negInf => DivResult.posInf

/-- Quotient `x / y` of doubles that may be non-finite: NaN propagates, an
infinity over an infinity is NaN, a number over an infinity is zero, and a
zero divisor acts as in `fdiv`.  The sign of a zero is not modelled; it only
selects which infinity a division by zero yields. -/
def DivResult.div (x y : DivResult K) : DivResult K :=
  match x, y with
  | DivResult.nan, _ => DivResult.nan
  | _, DivResult.nan => DivResult.nan
  | DivResult.finite a, DivResult.finite b => fdiv a b
  | DivResult.finite _, DivResult.posInf => DivResult.finite 0
  | DivResult.finite _, DivResult.negInf => DivResult.finite 0
  | DivResult.posInf, DivResult.finite b =>
    if b < 0 then DivResult.negInf else DivResult.posInf
  | DivResult.negInf, DivResult.finite b =>
    if b < 0 then DivResult.posInf else DivResult.negInf
  | DivResult.posInf, DivResult.posInf => DivResult.nan
  | DivResult.posInf, DivResult.negInf => DivResult.nan
  | DivResult.negInf, DivResult.posInf => DivResult.nan
  | DivResult.negInf, DivResult.negInf => DivResult.nan

/-- Comparison `x <= u` of a double that may be non-finite with a number. -/
def DivResult.le (r : DivResult K) (u : K) : Bool :=
  match r with
  | DivResult.finite v => decide (v ≤ u)
  | DivResult.negInf => true
  | DivResult.posInf => false
  | DivResult.nan => false

/-- Test `glm::isfinite(x)`. -/
def DivResult.isfinite (r : DivResult K) : Bool :=
  match r with
  | DivResult.finite _ => true
  | _ => false

/-- Sum `x + y` of doubles that may be non-finite: NaN propagates and
opposite infinities add up to NaN. -/
def DivResult.add (x y : DivResult K) : DivResult K :=
  match x, y with
  | DivResult.nan, _ => DivResult.nan
  | _, DivResult.nan => DivResult.nan
  | DivResult.finite a, DivResult.finite b => DivResult.finite (a + b)
  | DivResult.finite _, DivResult.posInf => DivResult.posInf
  | DivResult.finite _, DivResult.negInf => DivResult.negInf
  | DivResult.posInf, DivResult.finite _ => DivResult.posInf
  | DivResult.negInf, DivResult.finite _ => DivResult.negInf
  | DivResult.posInf, DivResult.posInf => DivResult.posInf
  | DivResult.posInf, DivResult.negInf => DivResult.nan
  | DivResult.negInf, DivResult.posInf => DivResult.nan
  | DivResult.negInf, DivResult.negInf => DivResult.negInf

/-- Difference `x - y` of doubles that may be non-finite: NaN propagates and
equal infinities subtract to NaN. -/
def DivResult.sub (x y : DivResult K) : DivResult K :=
  match x, y with
  | DivResult.nan, _ => DivResult.nan
  | _, DivResult.nan => DivResult.nan
  | DivResult.finite a, DivResult.finite b => DivResult.finite (a - b)
  | DivResult.finite _, DivResult.posInf => DivResult.negInf
  | DivResult.finite _, DivResult.negInf => DivResult.posInf
  | DivResult.posInf, DivResult.finite _ => DivResult.posInf
  | DivResult.negInf, DivResult.finite _ => DivResult.negInf
  | DivResult.posInf, DivResult.posInf => DivResult.nan
  | DivResult.posInf, DivResult.negInf => DivResult.posInf
  | DivResult.negInf, DivResult.posInf => DivResult.negInf
  | DivResult.negInf, DivResult.negInf => DivResult.nan

/-- Comparison `u < x` of a number with a double that may be non-finite. -/
def DivResult.gt (r : DivResult K) (u : K) : Bool :=
  match r with
  | DivResult.finite v => decide (u < v)
  | DivResult.posInf => true
  | DivResult.negInf => false
  | DivResult.nan => false

instance : Add (DivResult K) := ⟨DivResult.add⟩

instance : Sub (DivResult K) := ⟨DivResult.sub⟩

instance : Mul (DivResult K) := ⟨DivResult.mul⟩

instance : Div (DivResult K) := ⟨DivResult.div⟩

/-- Functions of `microfacet.hpp` that `material.hpp` calls; the header is
not among the sources, so they are parameters. -/
structure Microfacet (K : Type) where
  D_Beckmann : dvec3 K → dvec3 K → K → K
  G2_v_cavity : dvec3 K → dvec3 K → dvec3 K → dvec3 K → K
  fresnel_unpolarized : K → K → K → K
  fresnel_avg : K → K → K
  fresnel_dielectrics : K → K
  /-- Density `VCavityBeckmannVisibleNormalSampler::pdf(wi, alpha, wo, Ng)`. -/
  VCavityPdf : dvec3 K → K → dvec3 K → dvec3 K → K

/-- Process wide tables of one material class (`CoupledBRDFConductor` or
`CoupledBRDFDielectrics`): `specularAlbedo().sample`,
`specularAvgAlbedo().sample` and the two readers of `sampler()`. -/
structure CoupledBRDF (K : Type) where
  specularAlbedo : K → K → K
  specularAvgAlbedo : K → K
  thetaSize : K → K
  probability : K → K → K

/-! ## MicrofacetCoupledConductorMaterial -/

/-- Members of `MicrofacetCoupledConductorMaterial` (with `IMaterial::Ng`). -/
structure MicrofacetCoupledConductorMaterial (K : Type) where
  Ng : dvec3 K
  useFresnel : Bool
  alpha : K

/-- Which of the two samplers `sample` calls to draw `wi`. -/
inductive SamplerChoice where
  | specular
  | compensation
deriving DecidableEq, Repr

namespace MicrofacetCoupledConductorMaterial

/-- Refractive index of gold, `eta`. -/
def eta : dvec3 K := ⟨0.15557, 0.42415, 1.3821⟩

/-- Extinction coefficient of gold, `k`. -/
def k : dvec3 K := ⟨3.6024, 2.4721, 1.9155⟩

/-- Local `brdf_spec` of `bxdf` (lines 198-226), computed past the guard. -/
def brdf_spec (L : Libm K) (mf : Microfacet K)
    (m : MicrofacetCoupledConductorMaterial K) (wo wi : dvec3 K) : dvec3 K :=
  let cos_term_wo := dvec3.dot m.Ng wo
  let cos_term_wi := dvec3.dot m.Ng wi
  let h := normalize L (wi + wo)
  let d := mf.D_Beckmann m.Ng h m.alpha
  let g := mf.G2_v_cavity wi wo h m.Ng
  let brdf_without_f := d * g / (4.0 * cos_term_wo * cos_term_wi)
  if m.useFresnel then
    let cosThetaFresnel := dvec3.dot h wo
    let f : dvec3 K :=
      ⟨mf.fresnel_unpolarized (eta (K := K)).x (k (K := K)).x cosThetaFresnel,
       mf.fresnel_unpolarized (eta (K := K)).y (k (K := K)).y cosThetaFresnel,
       mf.fresnel_unpolarized (eta (K := K)).z (k (K := K)).z cosThetaFresnel⟩
    f * brdf_without_f
  else
    dvec3.splat brdf_without_f

/-- Local `kLambda` of `bxdf` (lines 228-249). -/
def kLambda (mf : Microfacet K) (tb : CoupledBRDF K)
    (m : MicrofacetCoupledConductorMaterial K) : dvec3 K :=
  let specularAlbedo := tb.specularAvgAlbedo m.alpha
  if m.useFresnel then
    let F : dvec3 K :=
      ⟨mf.fresnel_avg (eta (K := K)).x (k (K := K)).x,
       mf.fresnel_avg (eta (K := K)).y (k (K := K)).y,
       mf.fresnel_avg (eta (K := K)).z (k (K := K)).z⟩
    let E : dvec3 K := dvec3.splat specularAlbedo
    let ONE : dvec3 K := dvec3.splat 1.0
    E * F * F / (ONE - F * (ONE - E))
  else
    dvec3.splat 1.0

/-- Local `brdf_diff` of `bxdf` (lines 251-254): the compensation lobe. -/
def brdf_diff (L : Libm K) (mf : Microfacet K) (tb : CoupledBRDF K)
    (m : MicrofacetCoupledConductorMaterial K) (wo wi : dvec3 K) : dvec3 K :=
  let cos_term_wo := dvec3.dot m.Ng wo
  let cos_term_wi := dvec3.dot m.Ng wi
  let specularAlbedo := tb.specularAvgAlbedo m.alpha
  kLambda mf tb m
    * (1.0 - tb.specularAlbedo m.alpha cos_term_wo)
    * (1.0 - tb.specularAlbedo m.alpha cos_term_wi)
    / (L.pi * (1.0 - specularAlbedo))

/-- Method `bxdf(wo, wi)` (lines 189-257). -/
def bxdf (L : Libm K) (mf : Microfacet K) (tb : CoupledBRDF K)
    (m : MicrofacetCoupledConductorMaterial K) (wo wi : dvec3 K) : dvec3 K :=
  let cos_term_wo := dvec3.dot m.Ng wo
  let cos_term_wi := dvec3.dot m.Ng wi
  if cos_term_wo ≤ 0.0 ∨ cos_term_wi ≤ 0.0 then
    dvec3.zero
  else
    brdf_spec L mf m wo wi + brdf_diff L mf tb m wo wi

/-- Method `sample(random, wo)` (lines 259-274), up to the choice of the
sampler: `u` is the value of the first `random->uniform()`.  The direction
itself is drawn by samplers of absent headers. -/
def sample (tb : CoupledBRDF K) (m : MicrofacetCoupledConductorMaterial K)
    (u : K) (wo : dvec3 K) : SamplerChoice :=
  let spAlbedo := tb.specularAlbedo m.alpha (dvec3.dot m.Ng wo)
  if u < spAlbedo then SamplerChoice.specular else SamplerChoice.compensation

/-- Method `pdf(wo, sampled_wi)` (lines 275-286).  The values read from the
tables and the samplers are numbers; the three divisions of the expression
are divisions of doubles, so that a zero `sin(theta)` gives an infinity or
NaN. -/
def pdf (L : Libm K) (mf : Microfacet K) (tb : CoupledBRDF K)
    (m : MicrofacetCoupledConductorMaterial K) (wo sampled_wi : dvec3 K) : DivResult K :=
  let theta := L.acos (dvec3.dot m.Ng sampled_wi)
  let spAlbedo := tb.specularAlbedo m.alpha (dvec3.dot m.Ng wo)
  DivResult.finite spAlbedo * DivResult.finite (mf.VCavityPdf sampled_wi m.alpha wo m.Ng)
    + DivResult.finite (1.0 - spAlbedo)
        * (DivResult.finite 1.0 / DivResult.finite (2 * L.pi))
        * (DivResult.finite (tb.thetaSize m.alpha)
            * (DivResult.finite 2.0 / DivResult.finite L.pi))
        * DivResult.finite (tb.probability m.alpha theta) / DivResult.finite (L.sin theta)

end MicrofacetCoupledConductorMaterial

/-! ## MicrofacetCoupledDielectricsMaterial -/

/-- Members of `MicrofacetCoupledDielectricsMaterial` (with `IMaterial::Ng`). -/
structure MicrofacetCoupledDielectricsMaterial (K : Type) where
  Ng : dvec3 K
  alpha : K
  Cd : dvec3 K

namespace MicrofacetCoupledDielectricsMaterial

/-- Local `brdf_spec` of `bxdf` (lines 303-316), computed past the guard. -/
def brdf_spec (L : Libm K) (mf : Microfacet K)
    (m : MicrofacetCoupledDielectricsMaterial K) (wo wi : dvec3 K) : dvec3 K :=
  let cos_term_wo := dvec3.dot m.Ng wo
  let cos_term_wi := dvec3.dot m.Ng wi
  let h := normalize L (wi + wo)
  let d := mf.D_Beckmann m.Ng h m.alpha
  let g := mf.G2_v_cavity wi wo h m.Ng
  let brdf_without_f := d * g / (4.0 * cos_term_wo * cos_term_wi)
  let cosThetaFresnel := dvec3.dot h wo
  let f : dvec3 K := dvec3.splat (mf.fresnel_dielectrics cosThetaFresnel)
  f * brdf_without_f

/-- Local `brdf_diff` of `bxdf` (lines 318-323): the compensation lobe. -/
def brdf_diff (L : Libm K) (tb : CoupledBRDF K)
    (m : MicrofacetCoupledDielectricsMaterial K) (wo wi : dvec3 K) : dvec3 K :=
  let cos_term_wo := dvec3.dot m.Ng wo
  let cos_term_wi := dvec3.dot m.Ng wi
  let kLambda := m.Cd
  kLambda
    * (1.0 - tb.specularAlbedo m.alpha cos_term_wo)
    * (1.0 - tb.specularAlbedo m.alpha cos_term_wi)
    / (L.pi * (1.0 - tb.specularAvgAlbedo m.alpha))

/-- Method `bxdf(wo, wi)` (lines 294-326). -/
def bxdf (L : Libm K) (mf : Microfacet K) (tb : CoupledBRDF K)
    (m : MicrofacetCoupledDielectricsMaterial K) (wo wi : dvec3 K) : dvec3 K :=
  let cos_term_wo := dvec3.dot m.Ng wo
  let cos_term_wi := dvec3.dot m.Ng wi
  if cos_term_wo ≤ 0.0 ∨ cos_term_wi ≤ 0.0 then
    dvec3.zero
  else
    brdf_spec L mf m wo wi + brdf_diff L tb m wo wi

/-- Local `P_spec` shared by `sample` (lines 359-362) and `pdf`
(lines 378-382): a quotient of doubles, NaN or an infinity when
`spAlbedo + k_avg * (1.0 - spAlbedo)` is zero. -/
def P_spec (tb : CoupledBRDF K) (m : MicrofacetCoupledDielectricsMaterial K)
    (wo : dvec3 K) : DivResult K :=
  let spAlbedo := tb.specularAlbedo m.alpha (dvec3.dot m.Ng wo)
  let kLambda := m.Cd
  let k_avg := (kLambda.x + kLambda.y + kLambda.z) / 3.0
  fdiv spAlbedo (spAlbedo + k_avg * (1.0 - spAlbedo))

/-- Method `sample(random, wo)` (lines 357-374), up to the choice of the
sampler: `u` is the value of the first `random->uniform()`. -/
def sample (tb : CoupledBRDF K) (m : MicrofacetCoupledDielectricsMaterial K)
    (u : K) (wo : dvec3 K) : SamplerChoice :=
  if (P_spec tb m wo).gt u then SamplerChoice.specular else SamplerChoice.compensation

/-- Method `pdf(wo, sampled_wi)` (lines 375-389), in the arithmetic of
doubles that may be non-finite: `P_spec` may be NaN and `sin(theta)` zero. -/
def pdf (L : Libm K) (mf : Microfacet K) (tb : CoupledBRDF K)
    (m : MicrofacetCoupledDielectricsMaterial K) (wo sampled_wi : dvec3 K) : DivResult K :=
  let theta := L.acos (dvec3.dot m.Ng sampled_wi)
  P_spec tb m wo * DivResult.finite (mf.VCavityPdf sampled_wi m.alpha wo m.Ng)
    + (DivResult.finite 1.0 - P_spec tb m wo)
        * (DivResult.finite 1.0 / DivResult.finite (2 * L.pi))
        * (DivResult.finite (tb.thetaSize m.alpha)
            * (DivResult.finite 2.0 / DivResult.finite L.pi))
        * DivResult.finite (tb.probability m.alpha theta) / DivResult.finite (L.sin theta)

end MicrofacetCoupledDielectricsMaterial

/-! ## CoupledBRDFBaker: quadrature and inversion (ofApp.cpp) -/

/-- Modelled from the spec: `composite_simpson.hpp` is not among the sources.
Composite Simpson rule with `n` subdivisions (`n` even) of `[a, b]`: step
`h = (b - a) / n`, weight 1 at both ends, 4 at the odd nodes and 2 at the
even interior nodes, times `h / 3`. -/
def composite_simpson (f : K → K) (n : Nat) (a b : K) : K :=
  let h := (b - a) / (n : K)
  (h / 3) * (f a + f b
    + 4 * ∑ i in Finset.range (n / 2), f (a + ((2 * i + 1 : ℕ) : K) * h)
    + 2 * ∑ i in Finset.range (n / 2 - 1), f (a + ((2 * i + 2 : ℕ) : K) * h))

/-- Function `I(theta, alpha, specularAlbedo)` (lines 88-93). -/
def I (L : Libm K) (theta alpha : K) (specularAlbedo : K → K → K) : K :=
  composite_simpson (fun xi =>
    let cosTheta := L.cos xi
    (1.0 - specularAlbedo alpha cosTheta) * cosTheta) 128 0.0 theta

/-- Function `I_Dot(theta, alpha, specularAlbedo)` (lines 95-97). -/
def I_Dot (L : Libm K) (theta alpha : K) (specularAlbedo : K → K → K) : DivResult K :=
  fdiv (I L theta alpha specularAlbedo) (I L (L.pi * 0.5) alpha specularAlbedo)

/-- Locals `a`, `b`, `c` of `I_Dot_Inverse`. -/
structure Bracket (K : Type) where
  a : K
  b : K
  c : K
deriving DecidableEq, Repr

/-- Locals of `I_Dot_Inverse` on entry to the loop (lines 100-103). -/
def I_Dot_Inverse_init (L : Libm K) : Bracket K :=
  let a : K := 0.0
  let b : K := L.pi * 0.5
  ⟨a, b, (a + b) * 0.5⟩

/-- Body of the `while` loop of `I_Dot_Inverse` (lines 105-112). -/
def I_Dot_Inverse_body (L : Libm K) (alpha u : K) (specularAlbedo : K → K → K)
    (s : Bracket K) : Bracket K :=
  let value := I_Dot L s.c alpha specularAlbedo
  let a := if value.lt u then s.c else s.a
  let b := if value.lt u then s.b else s.c
  ⟨a, b, (a + b) * 0.5⟩

/-- The `while` loop of `I_Dot_Inverse` (line 104), run for at most `fuel`
passes through its body; `none` when the test still holds after them. -/
def I_Dot_Inverse_loop (L : Libm K) (alpha u : K) (specularAlbedo : K → K → K) :
    Nat → Bracket K → Option (Bracket K)
  | 0, s => if 1.0e-5 < |s.a - s.b| then none else some s
  | fuel + 1, s =>
    if 1.0e-5 < |s.a - s.b| then
      I_Dot_Inverse_loop L alpha u specularAlbedo fuel
        (I_Dot_Inverse_body L alpha u specularAlbedo s)
    else some s

/-- Locals of `I_Dot_Inverse` after `n` passes through the loop body. -/
def I_Dot_Inverse_after (L : Libm K) (alpha u : K) (specularAlbedo : K → K → K)
    (n : Nat) : Bracket K :=
  (I_Dot_Inverse_body L alpha u specularAlbedo)^[n] (I_Dot_Inverse_init L)

/-- Function `I_Dot_Inverse(alpha, u, specularAlbedo)` (lines 99-115). -/
def I_Dot_Inverse (L : Libm K) (fuel : Nat) (alpha u : K)
    (specularAlbedo : K → K → K) : Option K :=
  (I_Dot_Inverse_loop L alpha u specularAlbedo fuel (I_Dot_Inverse_init L)).map Bracket.c

/-! ## CoupledBRDFBaker: one Monte Carlo sample of `bake` (ofApp.cpp) -/

/-- Doubles that one pass of the sample loop of `bake` obtains from absent
headers: `cos_term_wi = dot(Ng, wi)` for the `wi` drawn by
`BeckmannImportanceSampler::sample`, its density `pdf_omega`,
`d = D_Beckmann(Ng, h, alpha)`, `g = G2_height_correlated_beckmann(..)` and
`f = fresnel_dielectrics(dot(h, wo))`.  Each may be non-finite. -/
structure BakeSample (K : Type) where
  cos_term_wi : DivResult K
  pdf_omega : DivResult K
  d : DivResult K
  g : DivResult K
  f : DivResult K

/-- Local `value` of `bake` as first computed (lines 32-42):
`brdf * cos_term_wi / pdf_omega`, where `cos_term_wo = dot(Ng, wo)` is
`cosTheta` for `Ng = (0, 0, 1)` and `wo = (sqrt(1 - cosTheta²), 0, cosTheta)`. -/
def bake_estimate (include_fresnel_dielectrics : Bool) (cosTheta : K)
    (s : BakeSample K) : DivResult K :=
  let cos_term_wo : DivResult K := DivResult.finite cosTheta
  let brdf := (s.d.mul s.g).div
    (((DivResult.finite 4.0).mul cos_term_wo).mul s.cos_term_wi)
  let brdf := if include_fresnel_dielectrics then brdf.mul s.f else brdf
  (brdf.mul s.cos_term_wi).div s.pdf_omega

/-- Argument of `mean.addSample` in one pass of the sample loop of `bake`
(lines 42-53): the estimate, replaced by `0.0` when `dot(wi, Ng) <= 0.0` and
again when it is not finite. -/
def bake_value (include_fresnel_dielectrics : Bool) (cosTheta : K)
    (s : BakeSample K) : DivResult K :=
  let value := bake_estimate include_fresnel_dielectrics cosTheta s
  let value := if s.cos_term_wi.le 0.0 then DivResult.finite 0.0 else value
  let value := if value.isfinite == false then DivResult.finite 0.0 else value
  value

/-! ## Formulas of the specification -/

/-- Compensation weight of one channel as the specification words it:
`E·F² / (1 − F·(1 − E))`. -/
def spec_kLambda (E F : K) : K :=
  E * F ^ 2 / (1 - F * (1 - E))

/-- One colour channel of `evaluate` above the surface as the specification
words it: specular lobe `D·G2·F / (4·cosθo·cosθi)` plus compensation lobe
`kLambda·(1 − albedo(θo))·(1 − albedo(θi)) / (π·(1 − avgAlbedo))`. -/
def spec_evaluate (pi D G2 F cosO cosI kLambda albedoO albedoI avgAlbedo : K) : K :=
  D * G2 * F / (4 * cosO * cosI)
    + kLambda * (1 - albedoO) * (1 - albedoI) / (pi * (1 - avgAlbedo))

/-- Mixture weight of the dielectric as the specification words it:
`albedo / (albedo + k_avg·(1 − albedo))` with `k_avg` the mean of the three
channels of `Cd`. -/
def spec_P_spec (albedo : K) (Cd : dvec3 K) : K :=
  albedo / (albedo + (Cd.x + Cd.y + Cd.z) / 3 * (1 - albedo))

/-- Mixture density as the specification words it: the polar density is
divided by `2π·sinθ` and by `thetaSize`. -/
def spec_pdf (L : Libm K) (w pdf_spec probability thetaSize theta : K) : K :=
  w * pdf_spec + (1 - w) * (probability / (2 * L.pi * L.sin theta * thetaSize))

/-- Value that the specification gives for `pdf` of the coupled conductor:
`spec_pdf` at the weight, densities and normalisation that `pdf` reads. -/
def MicrofacetCoupledConductorMaterial.spec_pdf (L : Libm K) (mf : Microfacet K)
    (tb : CoupledBRDF K) (m : MicrofacetCoupledConductorMaterial K)
    (wo wi : dvec3 K) : K :=
  let theta := L.acos (dvec3.dot m.Ng wi)
  rt.spec_pdf L (tb.specularAlbedo m.alpha (dvec3.dot m.Ng wo))
    (mf.VCavityPdf wi m.alpha wo m.Ng) (tb.probability m.alpha theta)
    (tb.thetaSize m.alpha) theta

/-- Value that the specification gives for `pdf` of the coupled dielectric:
`spec_pdf` at the weight, densities and normalisation that `pdf` reads. -/
def MicrofacetCoupledDielectricsMaterial.spec_pdf (L : Libm K) (mf : Microfacet K)
    (tb : CoupledBRDF K) (m : MicrofacetCoupledDielectricsMaterial K)
    (wo wi : dvec3 K) : K :=
  let theta := L.acos (dvec3.dot m.Ng wi)
  rt.spec_pdf L (spec_P_spec (tb.specularAlbedo m.alpha (dvec3.dot m.Ng wo)) m.Cd)
    (mf.VCavityPdf wi m.alpha wo m.Ng) (tb.probability m.alpha theta)
    (tb.thetaSize m.alpha) theta

/-! ## Data for the instances -/

/-- Microfacet terms that are constant: distribution `d`, shadowing 1,
Fresnel 1, specular sampler density `p`. -/
def constMicrofacet (d p : K) : Microfacet K where
  D_Beckmann := fun _ _ _ => d
  G2_v_cavity := fun _ _ _ _ => 1
  fresnel_unpolarized := fun _ _ _ => 1
  fresnel_avg := fun _ _ => 1
  fresnel_dielectrics := fun _ => 1
  VCavityPdf := fun _ _ _ _ => p

/-- Tables that are constant in both arguments: albedo `e`, average albedo
`avg`, lobe normalisation `n`, with polar density `cos θ`. -/
def constTables (L : Libm K) (e avg n : K) : CoupledBRDF K where
  specularAlbedo := fun _ _ => e
  specularAvgAlbedo := fun _ => avg
  thetaSize := fun _ => n
  probability := fun _ theta => L.cos theta

/-- Direction at polar angle `theta` and azimuth `phi` in the canonical
frame, whose normal is `(0, 0, 1)`. -/
def polarDir (L : Libm K) (theta phi : K) : dvec3 K :=
  ⟨L.sin theta * L.cos phi, L.sin theta * L.sin phi, L.cos theta⟩

/-- Cosine weighted integral of `F` over the hemisphere of the directions
`dir θ φ`, polar angle `θ` in `[0, π/2]` and azimuth `φ` in `[0, 2π]`, with
the solid angle element `sin θ dθ dφ`. -/
noncomputable def hemisphere (dir : ℝ → ℝ → dvec3 ℝ) (F : dvec3 ℝ → ℝ) : ℝ :=
  ∫ φ in (0 : ℝ)..(2 * Real.pi), ∫ θ in (0 : ℝ)..(Real.pi / 2),
    F (dir θ φ) * Real.cos θ * Real.sin θ

/-- Specular albedo with value 0 where the cosine is `c0` and value 1 at
every other cosine. -/
def pointAlbedo (c0 : K) : K → K → K :=
  fun _ cosTheta => if cosTheta = c0 then 0 else 1

/-- Surface normal of the canonical frame, `Ng = (0, 0, 1)`. -/
def canonicalNg : dvec3 K := ⟨0, 0, 1⟩


/-! # Theorems: arithmetic of doubles that may be non-finite -/

theorem DivResult.times_eq (x y : DivResult K) : x * y = x.mul y := rfl

theorem DivResult.over_eq (x y : DivResult K) : x / y = x.div y := rfl

theorem DivResult.plus_eq (x y : DivResult K) : x + y = x.add y := rfl

theorem DivResult.minus_eq (x y : DivResult K) : x - y = x.sub y := rfl

theorem DivResult.finite_mul_finite (a b : K) :
    DivResult.finite a * DivResult.finite b = DivResult.finite (a * b) := rfl

theorem DivResult.finite_add_finite (a b : K) :
    DivResult.finite a + DivResult.finite b = DivResult.finite (a + b) := rfl

theorem DivResult.finite_sub_finite (a b : K) :
    DivResult.finite a - DivResult.finite b = DivResult.finite (a - b) := rfl

theorem DivResult.finite_div_finite (a s : K) :
    DivResult.finite a / DivResult.finite s = fdiv a s := rfl

theorem fdiv_of_ne (a s : K) (hs : s ≠ 0) : fdiv a s = DivResult.finite (a / s) := by
  simp only [fdiv, if_neg hs]

theorem sign_cases (a : K) :
    (a < 0 ∧ ¬ 0 < a ∧ a ≠ 0) ∨ (a = 0 ∧ ¬ 0 < a ∧ ¬ a < 0) ∨ (0 < a ∧ ¬ a < 0 ∧ a ≠ 0) := by
  rcases lt_trichotomy a 0 with h | h | h
  · exact Or.inl ⟨h, not_lt_of_lt h, ne_of_lt h⟩
  · exact Or.inr (Or.inl ⟨h, by rw [h]; exact lt_irrefl 0, by rw [h]; exact lt_irrefl 0⟩)
  · exact Or.inr (Or.inr ⟨h, not_lt_of_lt h, ne_of_gt h⟩)

theorem DivResult.mul_finite_assoc (x : DivResult K) (a b : K) :
    x * DivResult.finite a * DivResult.finite b = x * DivResult.finite (a * b) := by
  cases x with
  | finite v => simp only [DivResult.times_eq, DivResult.mul, mul_assoc]
  | nan => simp only [DivResult.times_eq, DivResult.mul]
  | posInf =>
    rcases sign_cases a with ⟨ha1, ha2, ha3⟩ | ⟨ha1, ha2, ha3⟩ | ⟨ha1, ha2, ha3⟩ <;>
      rcases sign_cases b with ⟨hb1, hb2, hb3⟩ | ⟨hb1, hb2, hb3⟩ | ⟨hb1, hb2, hb3⟩ <;>
      simp [DivResult.times_eq, DivResult.mul, ha1, ha2, ha3, hb1, hb2, hb3, mul_pos_iff,
        mul_neg_iff]
  | negInf =>
    rcases sign_cases a with ⟨ha1, ha2, ha3⟩ | ⟨ha1, ha2, ha3⟩ | ⟨ha1, ha2, ha3⟩ <;>
      rcases sign_cases b with ⟨hb1, hb2, hb3⟩ | ⟨hb1, hb2, hb3⟩ | ⟨hb1, hb2, hb3⟩ <;>
      simp [DivResult.times_eq, DivResult.mul, ha1, ha2, ha3, hb1, hb2, hb3, mul_pos_iff,
        mul_neg_iff]

theorem DivResult.mul_finite_div (x : DivResult K) (a s : K) :
    x * DivResult.finite a / DivResult.finite s
      = x * (DivResult.finite a / DivResult.finite s) := by
  cases x with
  | finite v =>
    rcases sign_cases v with ⟨hv1, hv2, hv3⟩ | ⟨hv1, hv2, hv3⟩ | ⟨hv1, hv2, hv3⟩ <;>
      rcases sign_cases a with ⟨ha1, ha2, ha3⟩ | ⟨ha1, ha2, ha3⟩ | ⟨ha1, ha2, ha3⟩ <;>
      rcases sign_cases s with ⟨hs1, hs2, hs3⟩ | ⟨hs1, hs2, hs3⟩ | ⟨hs1, hs2, hs3⟩ <;>
      simp [DivResult.times_eq, DivResult.over_eq, DivResult.mul, DivResult.div, fdiv,
        ha1, ha2, ha3, hs1, hs2, hs3, hv1, hv2, hv3, mul_pos_iff, mul_neg_iff, mul_div_assoc]
  | nan => simp only [DivResult.times_eq, DivResult.over_eq, DivResult.mul, DivResult.div]
  | posInf =>
    rcases sign_cases a with ⟨ha1, ha2, ha3⟩ | ⟨ha1, ha2, ha3⟩ | ⟨ha1, ha2, ha3⟩ <;>
      rcases sign_cases s with ⟨hs1, hs2, hs3⟩ | ⟨hs1, hs2, hs3⟩ | ⟨hs1, hs2, hs3⟩ <;>
      simp [DivResult.times_eq, DivResult.over_eq, DivResult.mul, DivResult.div, fdiv,
        ha1, ha2, ha3, hs1, hs2, hs3, div_pos_iff, div_neg_iff]
  | negInf =>
    rcases sign_cases a with ⟨ha1, ha2, ha3⟩ | ⟨ha1, ha2, ha3⟩ | ⟨ha1, ha2, ha3⟩ <;>
      rcases sign_cases s with ⟨hs1, hs2, hs3⟩ | ⟨hs1, hs2, hs3⟩ | ⟨hs1, hs2, hs3⟩ <;>
      simp [DivResult.times_eq, DivResult.over_eq, DivResult.mul, DivResult.div, fdiv,
        ha1, ha2, ha3, hs1, hs2, hs3, div_pos_iff, div_neg_iff]

/-! # Theorems: material.hpp -/

/-! ## Vector arithmetic -/

theorem dvec3.add_def (u v : dvec3 K) : u + v = ⟨u.x + v.x, u.y + v.y, u.z + v.z⟩ := rfl

theorem dvec3.sub_def (u v : dvec3 K) : u - v = ⟨u.x - v.x, u.y - v.y, u.z - v.z⟩ := rfl

theorem dvec3.mul_def (u v : dvec3 K) : u * v = ⟨u.x * v.x, u.y * v.y, u.z * v.z⟩ := rfl

theorem dvec3.div_def (u v : dvec3 K) : u / v = ⟨u.x / v.x, u.y / v.y, u.z / v.z⟩ := rfl

theorem dvec3.scale_def (u : dvec3 K) (s : K) : u * s = ⟨u.x * s, u.y * s, u.z * s⟩ := rfl

theorem dvec3.shrink_def (u : dvec3 K) (s : K) : u / s = ⟨u.x / s, u.y / s, u.z / s⟩ := rfl

/-- C2: above the surface every colour channel of the conductor `bxdf` and
of the dielectric `bxdf` is the specular lobe `D·G2·F/(4·cosθo·cosθi)` plus
the compensation lobe
`kLambda·(1 − albedo2D(α, cosθo))·(1 − albedo2D(α, cosθi))/(π·(1 − avgAlbedo(α)))`.
For the conductor with `useFresnel = false`, `F = 1` and `kLambda = 1`; with
`useFresnel = true`, `F = fresnel_unpolarized(eta, k, h·wo)` and
`kLambda = E·F̄²/(1 − F̄·(1 − E))`, `F̄ = fresnel_avg(eta, k)`, channel by
channel at the constants of gold; for the dielectric
`F = fresnel_dielectrics(h·wo)` and `kLambda = Cd`. -/
theorem bxdf_eq_spec_evaluate (L : Libm K) (mf : Microfacet K)
    (tbc tbd : CoupledBRDF K) (mc : MicrofacetCoupledConductorMaterial K)
    (md : MicrofacetCoupledDielectricsMaterial K) (wo wi : dvec3 K) :
    (mc.useFresnel = false → 0 < dvec3.dot mc.Ng wo → 0 < dvec3.dot mc.Ng wi →
      mc.bxdf L mf tbc wo wi =
        dvec3.splat (spec_evaluate L.pi
          (mf.D_Beckmann mc.Ng (normalize L (wi + wo)) mc.alpha)
          (mf.G2_v_cavity wi wo (normalize L (wi + wo)) mc.Ng) 1
          (dvec3.dot mc.Ng wo) (dvec3.dot mc.Ng wi) 1
          (tbc.specularAlbedo mc.alpha (dvec3.dot mc.Ng wo))
          (tbc.specularAlbedo mc.alpha (dvec3.dot mc.Ng wi))
          (tbc.specularAvgAlbedo mc.alpha))) ∧
    (mc.useFresnel = true → 0 < dvec3.dot mc.Ng wo → 0 < dvec3.dot mc.Ng wi →
      mc.bxdf L mf tbc wo wi =
        ⟨spec_evaluate L.pi
          (mf.D_Beckmann mc.Ng (normalize L (wi + wo)) mc.alpha)
          (mf.G2_v_cavity wi wo (normalize L (wi + wo)) mc.Ng)
          (mf.fresnel_unpolarized 0.15557 3.6024 (dvec3.dot (normalize L (wi + wo)) wo))
          (dvec3.dot mc.Ng wo) (dvec3.dot mc.Ng wi)
          (spec_kLambda (tbc.specularAvgAlbedo mc.alpha) (mf.fresnel_avg 0.15557 3.6024))
          (tbc.specularAlbedo mc.alpha (dvec3.dot mc.Ng wo))
          (tbc.specularAlbedo mc.alpha (dvec3.dot mc.Ng wi))
          (tbc.specularAvgAlbedo mc.alpha),
         spec_evaluate L.pi
          (mf.D_Beckmann mc.Ng (normalize L (wi + wo)) mc.alpha)
          (mf.G2_v_cavity wi wo (normalize L (wi + wo)) mc.Ng)
          (mf.fresnel_unpolarized 0.42415 2.4721 (dvec3.dot (normalize L (wi + wo)) wo))
          (dvec3.dot mc.Ng wo) (dvec3.dot mc.Ng wi)
          (spec_kLambda (tbc.specularAvgAlbedo mc.alpha) (mf.fresnel_avg 0.42415 2.4721))
          (tbc.specularAlbedo mc.alpha (dvec3.dot mc.Ng wo))
          (tbc.specularAlbedo mc.alpha (dvec3.dot mc.Ng wi))
          (tbc.specularAvgAlbedo mc.alpha),
         spec_evaluate L.pi
          (mf.D_Beckmann mc.Ng (normalize L (wi + wo)) mc.alpha)
          (mf.G2_v_cavity wi wo (normalize L (wi + wo)) mc.Ng)
          (mf.fresnel_unpolarized 1.3821 1.9155 (dvec3.dot (normalize L (wi + wo)) wo))
          (dvec3.dot mc.Ng wo) (dvec3.dot mc.Ng wi)
          (spec_kLambda (tbc.specularAvgAlbedo mc.alpha) (mf.fresnel_avg 1.3821 1.9155))
          (tbc.specularAlbedo mc.alpha (dvec3.dot mc.Ng wo))
          (tbc.specularAlbedo mc.alpha (dvec3.dot mc.Ng wi))
          (tbc.specularAvgAlbedo mc.alpha)⟩) ∧
    (0 < dvec3.dot md.Ng wo → 0 < dvec3.dot md.Ng wi →
      md.bxdf L mf tbd wo wi =
        ⟨spec_evaluate L.pi
          (mf.D_Beckmann md.Ng (normalize L (wi + wo)) md.alpha)
          (mf.G2_v_cavity wi wo (normalize L (wi + wo)) md.Ng)
          (mf.fresnel_dielectrics (dvec3.dot (normalize L (wi + wo)) wo))
          (dvec3.dot md.Ng wo) (dvec3.dot md.Ng wi) md.Cd.x
          (tbd.specularAlbedo md.alpha (dvec3.dot md.Ng wo))
          (tbd.specularAlbedo md.alpha (dvec3.dot md.Ng wi))
          (tbd.specularAvgAlbedo md.alpha),
         spec_evaluate L.pi
          (mf.D_Beckmann md.Ng (normalize L (wi + wo)) md.alpha)
          (mf.G2_v_cavity wi wo (normalize L (wi + wo)) md.Ng)
          (mf.fresnel_dielectrics (dvec3.dot (normalize L (wi + wo)) wo))
          (dvec3.dot md.Ng wo) (dvec3.dot md.Ng wi) md.Cd.y
          (tbd.specularAlbedo md.alpha (dvec3.dot md.Ng wo))
          (tbd.specularAlbedo md.alpha (dvec3.dot md.Ng wi))
          (tbd.specularAvgAlbedo md.alpha),
         spec_evaluate L.pi
          (mf.D_Beckmann md.Ng (normalize L (wi + wo)) md.alpha)
          (mf.G2_v_cavity wi wo (normalize L (wi + wo)) md.Ng)
          (mf.fresnel_dielectrics (dvec3.dot (normalize L (wi + wo)) wo))
          (dvec3.dot md.Ng wo) (dvec3.dot md.Ng wi) md.Cd.z
          (tbd.specularAlbedo md.alpha (dvec3.dot md.Ng wo))
          (tbd.specularAlbedo md.alpha (dvec3.dot md.Ng wi))
          (tbd.specularAvgAlbedo md.alpha)⟩) := by
  refine ⟨?_, ?_, ?_⟩
  · intro hF ho hi
    have hg : ¬ (dvec3.dot mc.Ng wo ≤ 0.0 ∨ dvec3.dot mc.Ng wi ≤ 0.0) := by
      norm_num; exact ⟨ho, hi⟩
    simp only [MicrofacetCoupledConductorMaterial.bxdf, if_neg hg,
      MicrofacetCoupledConductorMaterial.brdf_spec,
      MicrofacetCoupledConductorMaterial.brdf_diff,
      MicrofacetCoupledConductorMaterial.kLambda, hF, dvec3.splat, spec_evaluate,
      dvec3.add_def, dvec3.scale_def, dvec3.shrink_def]
    norm_num
  · intro hF ho hi
    have hg : ¬ (dvec3.dot mc.Ng wo ≤ 0.0 ∨ dvec3.dot mc.Ng wi ≤ 0.0) := by
      norm_num; exact ⟨ho, hi⟩
    simp only [MicrofacetCoupledConductorMaterial.bxdf, if_neg hg,
      MicrofacetCoupledConductorMaterial.brdf_spec,
      MicrofacetCoupledConductorMaterial.brdf_diff,
      MicrofacetCoupledConductorMaterial.kLambda, hF, if_true, dvec3.splat, spec_evaluate,
      spec_kLambda, MicrofacetCoupledConductorMaterial.eta,
      MicrofacetCoupledConductorMaterial.k,
      dvec3.add_def, dvec3.sub_def, dvec3.mul_def, dvec3.div_def, dvec3.scale_def,
      dvec3.shrink_def]
    norm_num
    refine ⟨?_, ?_, ?_⟩ <;> ring
  · intro ho hi
    have hg : ¬ (dvec3.dot md.Ng wo ≤ 0.0 ∨ dvec3.dot md.Ng wi ≤ 0.0) := by
      norm_num; exact ⟨ho, hi⟩
    simp only [MicrofacetCoupledDielectricsMaterial.bxdf, if_neg hg,
      MicrofacetCoupledDielectricsMaterial.brdf_spec,
      MicrofacetCoupledDielectricsMaterial.brdf_diff, dvec3.splat, spec_evaluate,
      dvec3.add_def, dvec3.scale_def, dvec3.shrink_def]
    norm_num
    ring

/-- Instance of C2: normal `(0, 0, 1)`, `wo` along it, `wi = (3/5, 0, 4/5)`,
constant microfacet terms and tables; conductor without and with Fresnel
weighting, and dielectric. -/
theorem bxdf_eq_spec_evaluate_witness :
    (0 : ℝ) < dvec3.dot canonicalNg ⟨0, 0, 1⟩ ∧
    (0 : ℝ) < dvec3.dot canonicalNg ⟨3 / 5, 0, 4 / 5⟩ ∧
    MicrofacetCoupledConductorMaterial.bxdf realLibm (constMicrofacet 1 1)
        (constTables realLibm (1 / 2) (1 / 2) 1) ⟨canonicalNg, false, 1 / 2⟩
        ⟨0, 0, 1⟩ ⟨3 / 5, 0, 4 / 5⟩
      = dvec3.splat (spec_evaluate Real.pi 1 1 1 1 (4 / 5) 1 (1 / 2) (1 / 2) (1 / 2)) ∧
    MicrofacetCoupledConductorMaterial.bxdf realLibm (constMicrofacet 1 1)
        (constTables realLibm (1 / 2) (1 / 2) 1) ⟨canonicalNg, true, 1 / 2⟩
        ⟨0, 0, 1⟩ ⟨3 / 5, 0, 4 / 5⟩
      = dvec3.splat (spec_evaluate Real.pi 1 1 1 1 (4 / 5) (spec_kLambda (1 / 2) 1)
          (1 / 2) (1 / 2) (1 / 2)) ∧
    MicrofacetCoupledDielectricsMaterial.bxdf realLibm (constMicrofacet 1 1)
        (constTables realLibm (1 / 2) (1 / 2) 1) ⟨canonicalNg, 1 / 2, ⟨1, 1 / 2, 0⟩⟩
        ⟨0, 0, 1⟩ ⟨3 / 5, 0, 4 / 5⟩
      = ⟨spec_evaluate Real.pi 1 1 1 1 (4 / 5) 1 (1 / 2) (1 / 2) (1 / 2),
         spec_evaluate Real.pi 1 1 1 1 (4 / 5) (1 / 2) (1 / 2) (1 / 2) (1 / 2),
         spec_evaluate Real.pi 1 1 1 1 (4 / 5) 0 (1 / 2) (1 / 2) (1 / 2)⟩ := by
  have ho : (0 : ℝ) < dvec3.dot canonicalNg ⟨0, 0, 1⟩ := by
    norm_num [dvec3.dot, canonicalNg]
  have hi : (0 : ℝ) < dvec3.dot canonicalNg ⟨3 / 5, 0, 4 / 5⟩ := by
    norm_num [dvec3.dot, canonicalNg]
  have h := bxdf_eq_spec_evaluate realLibm (constMicrofacet 1 1)
    (constTables realLibm (1 / 2) (1 / 2) 1) (constTables realLibm (1 / 2) (1 / 2) 1)
    ⟨canonicalNg, false, 1 / 2⟩ ⟨canonicalNg, 1 / 2, ⟨1, 1 / 2, 0⟩⟩ ⟨0, 0, 1⟩ ⟨3 / 5, 0, 4 / 5⟩
  have h' := bxdf_eq_spec_evaluate realLibm (constMicrofacet 1 1)
    (constTables realLibm (1 / 2) (1 / 2) 1) (constTables realLibm (1 / 2) (1 / 2) 1)
    ⟨canonicalNg, true, 1 / 2⟩ ⟨canonicalNg, 1 / 2, ⟨1, 1 / 2, 0⟩⟩ ⟨0, 0, 1⟩ ⟨3 / 5, 0, 4 / 5⟩
  refine ⟨ho, hi, ?_, ?_, ?_⟩
  · rw [h.1 rfl ho hi]
    norm_num [dvec3.dot, canonicalNg, constMicrofacet, constTables, realLibm]
  · rw [h'.2.1 rfl ho hi]
    norm_num [dvec3.dot, canonicalNg, constMicrofacet, constTables, realLibm, dvec3.splat]
  · rw [h.2.2 ho hi]
    norm_num [dvec3.dot, canonicalNg, constMicrofacet, constTables, realLibm]

/-- C10: both coupled `bxdf` methods return the zero vector as soon as `wo`
or `wi` is on or below the surface, for all tables and microfacet terms. -/
theorem bxdf_zero_below_surface (L : Libm K) (mf : Microfacet K)
    (tbc tbd : CoupledBRDF K) (mc : MicrofacetCoupledConductorMaterial K)
    (md : MicrofacetCoupledDielectricsMaterial K) (wo wi : dvec3 K) :
    (dvec3.dot mc.Ng wo ≤ 0 ∨ dvec3.dot mc.Ng wi ≤ 0 →
      mc.bxdf L mf tbc wo wi = ⟨0, 0, 0⟩) ∧
    (dvec3.dot md.Ng wo ≤ 0 ∨ dvec3.dot md.Ng wi ≤ 0 →
      md.bxdf L mf tbd wo wi = ⟨0, 0, 0⟩) := by
  constructor
  · intro h
    have h' : dvec3.dot mc.Ng wo ≤ 0.0 ∨ dvec3.dot mc.Ng wi ≤ 0.0 := by
      norm_num; exact h
    simp only [MicrofacetCoupledConductorMaterial.bxdf, if_pos h', dvec3.zero]
  · intro h
    have h' : dvec3.dot md.Ng wo ≤ 0.0 ∨ dvec3.dot md.Ng wi ≤ 0.0 := by
      norm_num; exact h
    simp only [MicrofacetCoupledDielectricsMaterial.bxdf, if_pos h', dvec3.zero]

/-- Instance of C10: `wi = (0, 0, -1)` below the surface of normal
`(0, 0, 1)`. -/
theorem bxdf_zero_below_surface_witness :
    (dvec3.dot (canonicalNg (K := ℝ)) ⟨0, 0, 1⟩ ≤ 0 ∨
      dvec3.dot (canonicalNg (K := ℝ)) ⟨0, 0, -1⟩ ≤ 0) ∧
    MicrofacetCoupledConductorMaterial.bxdf realLibm (constMicrofacet 1 1)
      (constTables realLibm 1 1 1) ⟨canonicalNg, true, 1 / 2⟩ ⟨0, 0, 1⟩ ⟨0, 0, -1⟩
      = (⟨0, 0, 0⟩ : dvec3 ℝ) ∧
    MicrofacetCoupledDielectricsMaterial.bxdf realLibm (constMicrofacet 1 1)
      (constTables realLibm 1 1 1) ⟨canonicalNg, 1 / 2, ⟨1, 1, 1⟩⟩ ⟨0, 0, 1⟩ ⟨0, 0, -1⟩
      = (⟨0, 0, 0⟩ : dvec3 ℝ) :=
  ⟨by norm_num [dvec3.dot, canonicalNg],
    (bxdf_zero_below_surface realLibm (constMicrofacet 1 1)
      (constTables realLibm 1 1 1) (constTables realLibm 1 1 1)
      ⟨canonicalNg, true, 1 / 2⟩ ⟨canonicalNg, 1 / 2, ⟨1, 1, 1⟩⟩ ⟨0, 0, 1⟩ ⟨0, 0, -1⟩).1
      (by norm_num [dvec3.dot, canonicalNg]),
    (bxdf_zero_below_surface realLibm (constMicrofacet 1 1)
      (constTables realLibm 1 1 1) (constTables realLibm 1 1 1)
      ⟨canonicalNg, true, 1 / 2⟩ ⟨canonicalNg, 1 / 2, ⟨1, 1, 1⟩⟩ ⟨0, 0, 1⟩ ⟨0, 0, -1⟩).2
      (by norm_num [dvec3.dot, canonicalNg])⟩

/-! # Theorems: `sample` and `pdf` of the coupled materials -/

theorem pdf_tail (x : DivResult ℝ) (ts p s : ℝ) :
    x * (DivResult.finite 1.0 / DivResult.finite (2 * Real.pi))
        * (DivResult.finite ts * (DivResult.finite 2.0 / DivResult.finite Real.pi))
        * DivResult.finite p / DivResult.finite s
      = x * fdiv (p * (ts * (2 / Real.pi)) / (2 * Real.pi)) s := by
  have hpi : Real.pi ≠ 0 := ne_of_gt Real.pi_pos
  have h2pi : 2 * Real.pi ≠ 0 := by positivity
  rw [DivResult.finite_div_finite, DivResult.finite_div_finite, fdiv_of_ne _ _ h2pi,
    fdiv_of_ne _ _ hpi, DivResult.finite_mul_finite, DivResult.mul_finite_assoc,
    DivResult.mul_finite_assoc, DivResult.mul_finite_div, DivResult.finite_div_finite]
  congr 2
  norm_num
  ring

theorem conductor_pdf_eq (mf : Microfacet ℝ) (tb : CoupledBRDF ℝ)
    (m : MicrofacetCoupledConductorMaterial ℝ) (wo wi : dvec3 ℝ) :
    m.pdf realLibm mf tb wo wi =
      DivResult.finite (tb.specularAlbedo m.alpha (dvec3.dot m.Ng wo))
          * DivResult.finite (mf.VCavityPdf wi m.alpha wo m.Ng)
        + DivResult.finite (1 - tb.specularAlbedo m.alpha (dvec3.dot m.Ng wo))
          * fdiv (tb.probability m.alpha (Real.arccos (dvec3.dot m.Ng wi))
              * (tb.thetaSize m.alpha * (2 / Real.pi)) / (2 * Real.pi))
            (Real.sin (Real.arccos (dvec3.dot m.Ng wi))) := by
  have h1 : (1.0 : ℝ) = 1 := by norm_num
  simp only [MicrofacetCoupledConductorMaterial.pdf, realLibm, pdf_tail]
  rw [h1]

theorem dielectric_pdf_eq (mf : Microfacet ℝ) (tb : CoupledBRDF ℝ)
    (m : MicrofacetCoupledDielectricsMaterial ℝ) (wo wi : dvec3 ℝ) :
    m.pdf realLibm mf tb wo wi =
      m.P_spec tb wo * DivResult.finite (mf.VCavityPdf wi m.alpha wo m.Ng)
        + (DivResult.finite 1 - m.P_spec tb wo)
          * fdiv (tb.probability m.alpha (Real.arccos (dvec3.dot m.Ng wi))
              * (tb.thetaSize m.alpha * (2 / Real.pi)) / (2 * Real.pi))
            (Real.sin (Real.arccos (dvec3.dot m.Ng wi))) := by
  have h1 : (1.0 : ℝ) = 1 := by norm_num
  simp only [MicrofacetCoupledDielectricsMaterial.pdf, realLibm, pdf_tail]
  rw [h1]

theorem conductor_sample_iff (tb : CoupledBRDF ℝ) (m : MicrofacetCoupledConductorMaterial ℝ)
    (wo : dvec3 ℝ) (u : ℝ) :
    m.sample tb u wo = SamplerChoice.specular ↔
      u < tb.specularAlbedo m.alpha (dvec3.dot m.Ng wo) := by
  by_cases h : u < tb.specularAlbedo m.alpha (dvec3.dot m.Ng wo) <;>
    simp [MicrofacetCoupledConductorMaterial.sample, h]

theorem dielectric_sample_iff (tb : CoupledBRDF ℝ)
    (m : MicrofacetCoupledDielectricsMaterial ℝ) (wo : dvec3 ℝ) (u : ℝ) :
    m.sample tb u wo = SamplerChoice.specular ↔ (m.P_spec tb wo).gt u = true := by
  by_cases h : (m.P_spec tb wo).gt u = true <;>
    simp [MicrofacetCoupledDielectricsMaterial.sample, h]

theorem volume_draws_below (w : ℝ) :
    MeasureTheory.volume {u : ℝ | u ∈ Set.Ico (0 : ℝ) 1 ∧ u < w}
      = ENNReal.ofReal (min w 1) := by
  have hset : {u : ℝ | u ∈ Set.Ico (0 : ℝ) 1 ∧ u < w} = Set.Ico 0 (min w 1) := by
    ext u
    simp only [Set.mem_setOf_eq, Set.mem_Ico, lt_min_iff]
    constructor
    · rintro ⟨⟨h0, h1⟩, hw⟩; exact ⟨h0, hw, h1⟩
    · rintro ⟨h0, hw, h1⟩; exact ⟨⟨h0, h1⟩, hw⟩
  rw [hset, Real.volume_Ico, sub_zero]

theorem volume_draws_gt (r : DivResult ℝ) :
    MeasureTheory.volume {u : ℝ | u ∈ Set.Ico (0 : ℝ) 1 ∧ r.gt u = true}
      = match r with
        | DivResult.finite v => ENNReal.ofReal (min v 1)
        | DivResult.posInf => 1
        | DivResult.negInf => 0
        | DivResult.nan => 0 := by
  cases r with
  | finite v =>
    simp only [DivResult.gt, decide_eq_true_eq]
    exact volume_draws_below v
  | posInf =>
    have hset : {u : ℝ | u ∈ Set.Ico (0 : ℝ) 1 ∧ (DivResult.posInf : DivResult ℝ).gt u = true}
        = Set.Ico 0 1 := by
      ext u; simp [DivResult.gt]
    rw [hset, Real.volume_Ico]
    norm_num
  | negInf => simp [DivResult.gt]
  | nan => simp [DivResult.gt]

/-- C3 as worded fails.  The albedo table is not clamped: with the table
value `51/50` the conductor's `pdf` weighs the specular density by `51/50`,
while every draw of `[0, 1)` selects the specular sampler, so the selection
probability is 1.  For the dielectric with table value 0 and `Cd = (0,0,0)`,
`P_spec` is `0/0`: the weight in `pdf` is NaN and the selection probability
is 0. -/
theorem sample_probability_ne_weight :
    MicrofacetCoupledConductorMaterial.pdf realLibm (constMicrofacet 1 1)
        (constTables realLibm (51 / 50) (1 / 2) 1) ⟨canonicalNg, false, 1 / 2⟩
        ⟨0, 0, 1⟩ ⟨3 / 5, 0, 4 / 5⟩
      = DivResult.finite (51 / 50) * DivResult.finite 1
        + DivResult.finite (1 - 51 / 50)
          * fdiv (Real.cos (Real.arccos (dvec3.dot canonicalNg ⟨3 / 5, 0, 4 / 5⟩))
              * (1 * (2 / Real.pi)) / (2 * Real.pi))
            (Real.sin (Real.arccos (dvec3.dot canonicalNg ⟨3 / 5, 0, 4 / 5⟩))) ∧
    MeasureTheory.volume
        {u : ℝ | u ∈ Set.Ico (0 : ℝ) 1 ∧
          MicrofacetCoupledConductorMaterial.sample (constTables realLibm (51 / 50) (1 / 2) 1)
            ⟨canonicalNg, false, 1 / 2⟩ u ⟨0, 0, 1⟩ = SamplerChoice.specular} = 1 ∧
    MeasureTheory.volume
        {u : ℝ | u ∈ Set.Ico (0 : ℝ) 1 ∧
          MicrofacetCoupledConductorMaterial.sample (constTables realLibm (51 / 50) (1 / 2) 1)
            ⟨canonicalNg, false, 1 / 2⟩ u ⟨0, 0, 1⟩ = SamplerChoice.specular}
      ≠ ENNReal.ofReal (51 / 50) ∧
    MicrofacetCoupledDielectricsMaterial.P_spec (constTables realLibm 0 (1 / 2) 1)
        ⟨canonicalNg, 1 / 2, ⟨0, 0, 0⟩⟩ ⟨0, 0, 1⟩ = DivResult.nan ∧
    MeasureTheory.volume
        {u : ℝ | u ∈ Set.Ico (0 : ℝ) 1 ∧
          MicrofacetCoupledDielectricsMaterial.sample (constTables realLibm 0 (1 / 2) 1)
            ⟨canonicalNg, 1 / 2, ⟨0, 0, 0⟩⟩ u ⟨0, 0, 1⟩ = SamplerChoice.specular} = 0 := by
  have hvol : MeasureTheory.volume
      {u : ℝ | u ∈ Set.Ico (0 : ℝ) 1 ∧
        MicrofacetCoupledConductorMaterial.sample (constTables realLibm (51 / 50) (1 / 2) 1)
          ⟨canonicalNg, false, 1 / 2⟩ u ⟨0, 0, 1⟩ = SamplerChoice.specular} = 1 := by
    simp only [conductor_sample_iff]
    rw [volume_draws_below]
    norm_num [constTables]
  have hnan : MicrofacetCoupledDielectricsMaterial.P_spec (constTables realLibm 0 (1 / 2) 1)
      ⟨canonicalNg, 1 / 2, ⟨0, 0, 0⟩⟩ ⟨0, 0, 1⟩ = DivResult.nan := by
    simp [MicrofacetCoupledDielectricsMaterial.P_spec, constTables, fdiv]
  refine ⟨?_, hvol, ?_, hnan, ?_⟩
  · rw [conductor_pdf_eq]
    rfl
  · rw [hvol]
    intro h
    have h2 := (ENNReal.ofReal_eq_one).1 h.symm
    norm_num at h2
  · simp only [dielectric_sample_iff, hnan]
    simp [DivResult.gt]

/-- C3 amended: `sample` calls the specular sampler exactly when its first
uniform draw `u` satisfies `u < w`, where `w` is the value that `pdf` uses
as weight of the specular density, `1 − w` weighing the compensation
density: `w = albedo2D(α, Ng·wo)` for the conductor and
`w = P_spec = albedo/(albedo + k_avg·(1 − albedo))`, a quotient of doubles,
for the dielectric.  The probability of selecting the specular sampler is
`w` clamped to `[0, 1]`: it is `w` when `w` lies in `[0, 1]`, 1 above, 0
below and 0 when `P_spec` is NaN. -/
theorem sample_weight_eq_pdf_weight (mf : Microfacet ℝ)
    (tbc tbd : CoupledBRDF ℝ) (mc : MicrofacetCoupledConductorMaterial ℝ)
    (md : MicrofacetCoupledDielectricsMaterial ℝ) (wo wi : dvec3 ℝ) :
    ((∀ u, mc.sample tbc u wo = SamplerChoice.specular ↔
        u < tbc.specularAlbedo mc.alpha (dvec3.dot mc.Ng wo)) ∧
      mc.pdf realLibm mf tbc wo wi =
        DivResult.finite (tbc.specularAlbedo mc.alpha (dvec3.dot mc.Ng wo))
            * DivResult.finite (mf.VCavityPdf wi mc.alpha wo mc.Ng)
          + DivResult.finite (1 - tbc.specularAlbedo mc.alpha (dvec3.dot mc.Ng wo))
            * fdiv (tbc.probability mc.alpha (Real.arccos (dvec3.dot mc.Ng wi))
                * (tbc.thetaSize mc.alpha * (2 / Real.pi)) / (2 * Real.pi))
              (Real.sin (Real.arccos (dvec3.dot mc.Ng wi))) ∧
      MeasureTheory.volume
          {u : ℝ | u ∈ Set.Ico (0 : ℝ) 1 ∧ mc.sample tbc u wo = SamplerChoice.specular}
        = ENNReal.ofReal (min (tbc.specularAlbedo mc.alpha (dvec3.dot mc.Ng wo)) 1) ∧
      (0 ≤ tbc.specularAlbedo mc.alpha (dvec3.dot mc.Ng wo) →
        tbc.specularAlbedo mc.alpha (dvec3.dot mc.Ng wo) ≤ 1 →
        MeasureTheory.volume
            {u : ℝ | u ∈ Set.Ico (0 : ℝ) 1 ∧ mc.sample tbc u wo = SamplerChoice.specular}
          = ENNReal.ofReal (tbc.specularAlbedo mc.alpha (dvec3.dot mc.Ng wo)))) ∧
    ((∀ u, md.sample tbd u wo = SamplerChoice.specular ↔ (md.P_spec tbd wo).gt u = true) ∧
      md.pdf realLibm mf tbd wo wi =
        md.P_spec tbd wo * DivResult.finite (mf.VCavityPdf wi md.alpha wo md.Ng)
          + (DivResult.finite 1 - md.P_spec tbd wo)
            * fdiv (tbd.probability md.alpha (Real.arccos (dvec3.dot md.Ng wi))
                * (tbd.thetaSize md.alpha * (2 / Real.pi)) / (2 * Real.pi))
              (Real.sin (Real.arccos (dvec3.dot md.Ng wi))) ∧
      md.P_spec tbd wo =
        fdiv (tbd.specularAlbedo md.alpha (dvec3.dot md.Ng wo))
          (tbd.specularAlbedo md.alpha (dvec3.dot md.Ng wo)
            + (md.Cd.x + md.Cd.y + md.Cd.z) / 3
              * (1 - tbd.specularAlbedo md.alpha (dvec3.dot md.Ng wo))) ∧
      (∀ v, md.P_spec tbd wo = DivResult.finite v →
        MeasureTheory.volume
            {u : ℝ | u ∈ Set.Ico (0 : ℝ) 1 ∧ md.sample tbd u wo = SamplerChoice.specular}
          = ENNReal.ofReal (min v 1)) ∧
      (∀ v, md.P_spec tbd wo = DivResult.finite v → 0 ≤ v → v ≤ 1 →
        MeasureTheory.volume
            {u : ℝ | u ∈ Set.Ico (0 : ℝ) 1 ∧ md.sample tbd u wo = SamplerChoice.specular}
          = ENNReal.ofReal v) ∧
      (md.P_spec tbd wo = DivResult.posInf →
        MeasureTheory.volume
            {u : ℝ | u ∈ Set.Ico (0 : ℝ) 1 ∧ md.sample tbd u wo = SamplerChoice.specular}
          = 1) ∧
      (md.P_spec tbd wo = DivResult.negInf ∨ md.P_spec tbd wo = DivResult.nan →
        MeasureTheory.volume
            {u : ℝ | u ∈ Set.Ico (0 : ℝ) 1 ∧ md.sample tbd u wo = SamplerChoice.specular}
          = 0)) := by
  have hc : MeasureTheory.volume
      {u : ℝ | u ∈ Set.Ico (0 : ℝ) 1 ∧ mc.sample tbc u wo = SamplerChoice.specular}
      = ENNReal.ofReal (min (tbc.specularAlbedo mc.alpha (dvec3.dot mc.Ng wo)) 1) := by
    simp only [conductor_sample_iff]
    exact volume_draws_below _
  have hd := volume_draws_gt (md.P_spec tbd wo)
  refine ⟨⟨conductor_sample_iff tbc mc wo, conductor_pdf_eq mf tbc mc wo wi, hc, ?_⟩,
    ⟨dielectric_sample_iff tbd md wo, dielectric_pdf_eq mf tbd md wo wi, ?_, ?_, ?_, ?_, ?_⟩⟩
  · intro _ h1
    rw [hc, min_eq_left h1]
  · simp only [MicrofacetCoupledDielectricsMaterial.P_spec]
    norm_num
  · intro v hv
    simp only [dielectric_sample_iff]
    rw [hd, hv]
  · intro v hv _ h1
    simp only [dielectric_sample_iff]
    rw [hd, hv]
    simp only [min_eq_left h1]
  · intro hv
    simp only [dielectric_sample_iff]
    rw [hd, hv]
  · intro hv
    simp only [dielectric_sample_iff]
    rw [hd]
    rcases hv with hv | hv <;> rw [hv]

/-- Instance of C3 amended: with the albedo table constant `1/2` and
`Cd = (1, 1, 1)`, `P_spec = 1/2` and the draws that select the specular
sampler of either material have measure `1/2`. -/
theorem sample_weight_eq_pdf_weight_witness :
    (0 : ℝ) ≤ 1 / 2 ∧ (1 / 2 : ℝ) ≤ 1 ∧
    MeasureTheory.volume
        {u : ℝ | u ∈ Set.Ico (0 : ℝ) 1 ∧
          MicrofacetCoupledConductorMaterial.sample (constTables realLibm (1 / 2) (1 / 2) 1)
            ⟨canonicalNg, false, 1 / 2⟩ u ⟨0, 0, 1⟩ = SamplerChoice.specular}
      = ENNReal.ofReal (1 / 2) ∧
    MicrofacetCoupledDielectricsMaterial.P_spec (constTables realLibm (1 / 2) (1 / 2) 1)
        ⟨canonicalNg, 1 / 2, ⟨1, 1, 1⟩⟩ ⟨0, 0, 1⟩ = DivResult.finite (1 / 2) ∧
    MeasureTheory.volume
        {u : ℝ | u ∈ Set.Ico (0 : ℝ) 1 ∧
          MicrofacetCoupledDielectricsMaterial.sample (constTables realLibm (1 / 2) (1 / 2) 1)
            ⟨canonicalNg, 1 / 2, ⟨1, 1, 1⟩⟩ u ⟨0, 0, 1⟩ = SamplerChoice.specular}
      = ENNReal.ofReal (1 / 2) := by
  have hP : MicrofacetCoupledDielectricsMaterial.P_spec (constTables realLibm (1 / 2) (1 / 2) 1)
      ⟨canonicalNg, 1 / 2, ⟨1, 1, 1⟩⟩ ⟨0, 0, 1⟩ = DivResult.finite (1 / 2) := by
    simp only [MicrofacetCoupledDielectricsMaterial.P_spec, constTables, fdiv]
    norm_num
  have h := sample_weight_eq_pdf_weight (constMicrofacet 1 1)
    (constTables realLibm (1 / 2) (1 / 2) 1) (constTables realLibm (1 / 2) (1 / 2) 1)
    ⟨canonicalNg, false, 1 / 2⟩ ⟨canonicalNg, 1 / 2, ⟨1, 1, 1⟩⟩ ⟨0, 0, 1⟩ ⟨0, 0, 1⟩
  exact ⟨by norm_num, by norm_num,
    h.1.2.2.2 (by norm_num [constTables]) (by norm_num [constTables]), hP,
    h.2.2.2.2.2.1 (1 / 2) hP (by norm_num) (by norm_num)⟩

/-- C4 as worded fails: with `thetaSize = 1`, `probability = cos θ`, zero
specular weight and `wi = (3/5, 0, 4/5)` (polar angle `arccos (4/5)`, inside
`(0, π/2)`), neither `pdf` equals the value obtained by dividing the polar
density by `2π·sinθ·thetaSize`. -/
theorem pdf_ne_spec_pdf :
    0 < Real.arccos (dvec3.dot (canonicalNg (K := ℝ)) ⟨3 / 5, 0, 4 / 5⟩) ∧
    Real.arccos (dvec3.dot (canonicalNg (K := ℝ)) ⟨3 / 5, 0, 4 / 5⟩) < Real.pi / 2 ∧
    MicrofacetCoupledConductorMaterial.pdf realLibm (constMicrofacet 1 0)
        (constTables realLibm 0 0 1) ⟨canonicalNg, false, 1 / 2⟩ ⟨0, 0, 1⟩ ⟨3 / 5, 0, 4 / 5⟩
      ≠ DivResult.finite
        (MicrofacetCoupledConductorMaterial.spec_pdf realLibm (constMicrofacet 1 0)
          (constTables realLibm 0 0 1) ⟨canonicalNg, false, 1 / 2⟩ ⟨0, 0, 1⟩
          ⟨3 / 5, 0, 4 / 5⟩) ∧
    MicrofacetCoupledDielectricsMaterial.pdf realLibm (constMicrofacet 1 0)
        (constTables realLibm 0 0 1) ⟨canonicalNg, 1 / 2, ⟨1, 1, 1⟩⟩ ⟨0, 0, 1⟩ ⟨3 / 5, 0, 4 / 5⟩
      ≠ DivResult.finite
        (MicrofacetCoupledDielectricsMaterial.spec_pdf realLibm (constMicrofacet 1 0)
          (constTables realLibm 0 0 1) ⟨canonicalNg, 1 / 2, ⟨1, 1, 1⟩⟩ ⟨0, 0, 1⟩
          ⟨3 / 5, 0, 4 / 5⟩) := by
  have hdot : dvec3.dot (canonicalNg (K := ℝ)) ⟨3 / 5, 0, 4 / 5⟩ = 4 / 5 := by
    norm_num [dvec3.dot, canonicalNg]
  have hcos : Real.cos (Real.arccos (4 / 5)) = 4 / 5 :=
    Real.cos_arccos (by norm_num) (by norm_num)
  have hsin : Real.sin (Real.arccos (4 / 5)) = 3 / 5 := by
    rw [Real.sin_arccos]
    have h : (1 : ℝ) - (4 / 5) ^ 2 = (3 / 5) ^ 2 := by norm_num
    rw [h, Real.sqrt_sq (by norm_num)]
  have hpi : (3 : ℝ) < Real.pi := Real.pi_gt_three
  have hp : Real.pi ≠ 0 := by positivity
  have hne : (4 : ℝ) / 5 * (1 * (2 / Real.pi)) / (2 * Real.pi) / (3 / 5)
      ≠ 4 / 5 / (2 * Real.pi * (3 / 5) * 1) := by
    intro h
    field_simp at h
    nlinarith
  have hP : MicrofacetCoupledDielectricsMaterial.P_spec (constTables realLibm 0 0 1)
      ⟨canonicalNg, 1 / 2, ⟨1, 1, 1⟩⟩ ⟨0, 0, 1⟩ = DivResult.finite 0 := by
    simp only [MicrofacetCoupledDielectricsMaterial.P_spec, constTables, fdiv]
    norm_num
  refine ⟨?_, ?_, ?_, ?_⟩
  · rw [hdot]; exact Real.arccos_pos.2 (by norm_num)
  · rw [hdot]; exact Real.arccos_lt_pi_div_two.2 (by norm_num)
  · rw [conductor_pdf_eq]
    simp only [MicrofacetCoupledConductorMaterial.spec_pdf, spec_pdf, constTables,
      constMicrofacet, realLibm, hdot, hcos, hsin]
    rw [fdiv_of_ne _ _ (by norm_num : (3 / 5 : ℝ) ≠ 0), DivResult.finite_mul_finite,
      DivResult.finite_mul_finite, DivResult.finite_add_finite]
    intro h
    apply hne
    have h2 := DivResult.finite.inj h
    linarith
  · rw [dielectric_pdf_eq, hP]
    simp only [MicrofacetCoupledDielectricsMaterial.spec_pdf, spec_pdf, spec_P_spec,
      constTables, constMicrofacet, realLibm, hdot, hcos, hsin]
    rw [fdiv_of_ne _ _ (by norm_num : (3 / 5 : ℝ) ≠ 0), DivResult.finite_mul_finite,
      DivResult.finite_sub_finite, DivResult.finite_mul_finite, DivResult.finite_add_finite]
    intro h
    apply hne
    have h2 := DivResult.finite.inj h
    norm_num at h2 ⊢
    linarith

/-- C4 amended: for every `wo` and every `wi` at polar angle `θ` in
`(0, π/2)`, both `pdf` methods return `w·pdf_spec + (1 − w)·q`, where `w` is
the threshold that `sample` compares its uniform draw with and `q` is the
polar density `probability(α, θ)` divided by `2π·sinθ` and multiplied by
`thetaSize(α)·(2/π)`.  For the dielectric `w = P_spec` is a quotient of
doubles and the sum is taken in their arithmetic. -/
theorem pdf_eq_mixture (mf : Microfacet ℝ)
    (tbc tbd : CoupledBRDF ℝ) (mc : MicrofacetCoupledConductorMaterial ℝ)
    (md : MicrofacetCoupledDielectricsMaterial ℝ) (wo wi : dvec3 ℝ) :
    (0 < Real.arccos (dvec3.dot mc.Ng wi) → Real.arccos (dvec3.dot mc.Ng wi) < Real.pi / 2 →
      mc.pdf realLibm mf tbc wo wi =
        DivResult.finite
          (tbc.specularAlbedo mc.alpha (dvec3.dot mc.Ng wo) * mf.VCavityPdf wi mc.alpha wo mc.Ng
          + (1 - tbc.specularAlbedo mc.alpha (dvec3.dot mc.Ng wo))
            * (tbc.probability mc.alpha (Real.arccos (dvec3.dot mc.Ng wi))
                / (2 * Real.pi * Real.sin (Real.arccos (dvec3.dot mc.Ng wi)))
                * (tbc.thetaSize mc.alpha * (2 / Real.pi)))) ∧
      ∀ u, mc.sample tbc u wo = SamplerChoice.specular ↔
        u < tbc.specularAlbedo mc.alpha (dvec3.dot mc.Ng wo)) ∧
    (0 < Real.arccos (dvec3.dot md.Ng wi) → Real.arccos (dvec3.dot md.Ng wi) < Real.pi / 2 →
      md.pdf realLibm mf tbd wo wi =
        md.P_spec tbd wo * DivResult.finite (mf.VCavityPdf wi md.alpha wo md.Ng)
        + (DivResult.finite 1 - md.P_spec tbd wo)
          * DivResult.finite
            (tbd.probability md.alpha (Real.arccos (dvec3.dot md.Ng wi))
              / (2 * Real.pi * Real.sin (Real.arccos (dvec3.dot md.Ng wi)))
              * (tbd.thetaSize md.alpha * (2 / Real.pi))) ∧
      ∀ u, md.sample tbd u wo = SamplerChoice.specular ↔ (md.P_spec tbd wo).gt u = true) := by
  have hpi := Real.pi_pos
  have key : ∀ (theta p t : ℝ), 0 < theta → theta < Real.pi / 2 →
      fdiv (p * (t * (2 / Real.pi)) / (2 * Real.pi)) (Real.sin theta)
        = DivResult.finite (p / (2 * Real.pi * Real.sin theta) * (t * (2 / Real.pi))) := by
    intro theta p t h0 h1
    have hs : 0 < Real.sin theta := Real.sin_pos_of_pos_of_lt_pi h0 (by linarith)
    have hs0 : Real.sin theta ≠ 0 := ne_of_gt hs
    rw [fdiv_of_ne _ _ hs0]
    congr 1
    ring
  constructor
  · intro h0 h1
    refine ⟨?_, conductor_sample_iff tbc mc wo⟩
    rw [conductor_pdf_eq, key _ _ _ h0 h1, DivResult.finite_mul_finite,
      DivResult.finite_mul_finite, DivResult.finite_add_finite]
  · intro h0 h1
    refine ⟨?_, dielectric_sample_iff tbd md wo⟩
    rw [dielectric_pdf_eq, key _ _ _ h0 h1]

/-- Instance of C4 amended: `wi = (3/5, 0, 4/5)` about the normal
`(0, 0, 1)`, at polar angle `arccos (4/5)`. -/
theorem pdf_eq_mixture_witness :
    0 < Real.arccos (dvec3.dot (canonicalNg (K := ℝ)) ⟨3 / 5, 0, 4 / 5⟩) ∧
    Real.arccos (dvec3.dot (canonicalNg (K := ℝ)) ⟨3 / 5, 0, 4 / 5⟩) < Real.pi / 2 ∧
    MicrofacetCoupledConductorMaterial.pdf realLibm (constMicrofacet 1 1)
        (constTables realLibm (1 / 2) (1 / 2) 1) ⟨canonicalNg, false, 1 / 2⟩
        ⟨0, 0, 1⟩ ⟨3 / 5, 0, 4 / 5⟩
      = DivResult.finite
          (1 / 2 * 1 + (1 - 1 / 2)
            * (Real.cos (Real.arccos (dvec3.dot canonicalNg ⟨3 / 5, 0, 4 / 5⟩))
                / (2 * Real.pi
                  * Real.sin (Real.arccos (dvec3.dot canonicalNg ⟨3 / 5, 0, 4 / 5⟩)))
                * (1 * (2 / Real.pi)))) := by
  have hdot : dvec3.dot (canonicalNg (K := ℝ)) ⟨3 / 5, 0, 4 / 5⟩ = 4 / 5 := by
    norm_num [dvec3.dot, canonicalNg]
  have h0 : 0 < Real.arccos (dvec3.dot (canonicalNg (K := ℝ)) ⟨3 / 5, 0, 4 / 5⟩) := by
    rw [hdot]; exact Real.arccos_pos.2 (by norm_num)
  have h1 : Real.arccos (dvec3.dot (canonicalNg (K := ℝ)) ⟨3 / 5, 0, 4 / 5⟩) < Real.pi / 2 := by
    rw [hdot]; exact Real.arccos_lt_pi_div_two.2 (by norm_num)
  exact ⟨h0, h1,
    ((pdf_eq_mixture (constMicrofacet 1 1) (constTables realLibm (1 / 2) (1 / 2) 1)
      (constTables realLibm (1 / 2) (1 / 2) 1) ⟨canonicalNg, false, 1 / 2⟩
      ⟨canonicalNg, 1 / 2, ⟨1, 1, 1⟩⟩ ⟨0, 0, 1⟩ ⟨3 / 5, 0, 4 / 5⟩).1 h0 h1).1⟩

/-! # Theorems: the bisection of `I_Dot_Inverse` -/

/-! ## One pass through the loop body -/

theorem I_Dot_Inverse_body_c (L : Libm K) (alpha u : K) (sA : K → K → K) (s : Bracket K) :
    (I_Dot_Inverse_body L alpha u sA s).c
      = ((I_Dot_Inverse_body L alpha u sA s).a + (I_Dot_Inverse_body L alpha u sA s).b) / 2 := by
  simp only [I_Dot_Inverse_body]
  norm_num
  ring

theorem I_Dot_Inverse_body_width (L : Libm K) (alpha u : K) (sA : K → K → K) (s : Bracket K)
    (hc : s.c = (s.a + s.b) / 2) :
    (I_Dot_Inverse_body L alpha u sA s).b - (I_Dot_Inverse_body L alpha u sA s).a
      = (s.b - s.a) / 2 := by
  simp only [I_Dot_Inverse_body]
  split_ifs <;> rw [hc] <;> ring

theorem I_Dot_Inverse_body_bounds (L : Libm K) (alpha u : K) (sA : K → K → K) (s : Bracket K)
    (hab : s.a ≤ s.b) (hc : s.c = (s.a + s.b) / 2) :
    s.a ≤ (I_Dot_Inverse_body L alpha u sA s).a ∧
    (I_Dot_Inverse_body L alpha u sA s).a ≤ (I_Dot_Inverse_body L alpha u sA s).b ∧
    (I_Dot_Inverse_body L alpha u sA s).b ≤ s.b := by
  have h1 : s.a ≤ s.c := by rw [hc]; linarith
  have h2 : s.c ≤ s.b := by rw [hc]; linarith
  simp only [I_Dot_Inverse_body]
  split_ifs <;> exact ⟨by linarith, by linarith, by linarith⟩

/-! ## The loop as an iteration of its body -/

theorem I_Dot_Inverse_loop_eq_iterate (L : Libm K) (alpha u : K) (sA : K → K → K) :
    ∀ (n fuel : Nat) (s : Bracket K),
      (∀ i, i < n → 1.0e-5 < |((I_Dot_Inverse_body L alpha u sA)^[i] s).a
        - ((I_Dot_Inverse_body L alpha u sA)^[i] s).b|) →
      ¬ 1.0e-5 < |((I_Dot_Inverse_body L alpha u sA)^[n] s).a
        - ((I_Dot_Inverse_body L alpha u sA)^[n] s).b| →
      n ≤ fuel →
      I_Dot_Inverse_loop L alpha u sA fuel s
        = some ((I_Dot_Inverse_body L alpha u sA)^[n] s) := by
  intro n
  induction n with
  | zero =>
    intro fuel s _ hstop _
    simp only [Function.iterate_zero, id_eq] at hstop
    cases fuel <;> simp [I_Dot_Inverse_loop, hstop]
  | succ n ih =>
    intro fuel s hgo hstop hfuel
    obtain ⟨fuel, rfl⟩ : ∃ f, fuel = f + 1 := ⟨fuel - 1, by omega⟩
    have h0 : 1.0e-5 < |s.a - s.b| := by
      have := hgo 0 (Nat.succ_pos n)
      simpa using this
    rw [I_Dot_Inverse_loop, if_pos h0]
    rw [Function.iterate_succ_apply]
    apply ih
    · intro i hi
      have := hgo (i + 1) (Nat.succ_lt_succ hi)
      rwa [Function.iterate_succ_apply] at this
    · rwa [Function.iterate_succ_apply] at hstop
    · omega

theorem I_Dot_Inverse_loop_out_of_fuel (L : Libm K) (alpha u : K) (sA : K → K → K) :
    ∀ (fuel : Nat) (s : Bracket K),
      (∀ i, i ≤ fuel → 1.0e-5 < |((I_Dot_Inverse_body L alpha u sA)^[i] s).a
        - ((I_Dot_Inverse_body L alpha u sA)^[i] s).b|) →
      I_Dot_Inverse_loop L alpha u sA fuel s = none := by
  intro fuel
  induction fuel with
  | zero =>
    intro s hgo
    have h0 : 1.0e-5 < |s.a - s.b| := by simpa using hgo 0 (le_refl 0)
    simp [I_Dot_Inverse_loop, h0]
  | succ fuel ih =>
    intro s hgo
    have h0 : 1.0e-5 < |s.a - s.b| := by simpa using hgo 0 (Nat.zero_le _)
    rw [I_Dot_Inverse_loop, if_pos h0]
    apply ih
    intro i hi
    have := hgo (i + 1) (Nat.succ_le_succ hi)
    rwa [Function.iterate_succ_apply] at this

theorem I_Dot_Inverse_after_succ (L : Libm K) (alpha u : K) (sA : K → K → K) (n : Nat) :
    I_Dot_Inverse_after L alpha u sA (n + 1)
      = I_Dot_Inverse_body L alpha u sA (I_Dot_Inverse_after L alpha u sA n) := by
  simp only [I_Dot_Inverse_after, Function.iterate_succ_apply']

/-! ## The bracket over the reals -/

theorem I_Dot_Inverse_iterate_inv (alpha u : ℝ) (sA : ℝ → ℝ → ℝ) (n : Nat) :
    0 ≤ (I_Dot_Inverse_after realLibm alpha u sA n).a ∧
    (I_Dot_Inverse_after realLibm alpha u sA n).a
      ≤ (I_Dot_Inverse_after realLibm alpha u sA n).b ∧
    (I_Dot_Inverse_after realLibm alpha u sA n).b
      ≤ Real.pi / 2 ∧
    (I_Dot_Inverse_after realLibm alpha u sA n).c
      = ((I_Dot_Inverse_after realLibm alpha u sA n).a
        + (I_Dot_Inverse_after realLibm alpha u sA n).b) / 2 ∧
    (I_Dot_Inverse_after realLibm alpha u sA n).b
      - (I_Dot_Inverse_after realLibm alpha u sA n).a
      = Real.pi / 2 / 2 ^ n := by
  induction n with
  | zero =>
    have hpi := Real.pi_pos
    simp only [I_Dot_Inverse_after, Function.iterate_zero, id_eq, I_Dot_Inverse_init, realLibm]
    norm_num
    refine ⟨hpi.le, by linarith, by ring, by ring⟩
  | succ n ih =>
    obtain ⟨h0, hab, hb, hc, hw⟩ := ih
    rw [I_Dot_Inverse_after_succ]
    have hbd := I_Dot_Inverse_body_bounds realLibm alpha u sA _ hab hc
    refine ⟨by linarith [hbd.1], hbd.2.1, by linarith [hbd.2.2],
      I_Dot_Inverse_body_c realLibm alpha u sA _, ?_⟩
    rw [I_Dot_Inverse_body_width realLibm alpha u sA _ hc, hw, pow_succ]
    ring

theorem bracket_width_large (n : Nat) (hn : n ≤ 17) :
    (1.0e-5 : ℝ) < Real.pi / 2 / 2 ^ n := by
  have hpi := Real.pi_gt_three
  have h2 : (2 : ℝ) ^ n ≤ 2 ^ 17 := pow_le_pow_right₀ (by norm_num) hn
  have hpos : (0 : ℝ) < 2 ^ n := by positivity
  rw [lt_div_iff₀ hpos]
  have : (1.0e-5 : ℝ) * 2 ^ n ≤ 1.0e-5 * 2 ^ 17 :=
    mul_le_mul_of_nonneg_left h2 (by norm_num)
  have h3 : (1.0e-5 : ℝ) * 2 ^ 17 < 3 / 2 := by norm_num
  linarith

theorem bracket_width_small : Real.pi / 2 / 2 ^ 18 ≤ (1.0e-5 : ℝ) := by
  have hpi := Real.pi_lt_d2
  rw [div_le_iff₀ (by positivity)]
  have h3 : (3.15 : ℝ) / 2 ≤ 1.0e-5 * 2 ^ 18 := by norm_num
  linarith

theorem I_Dot_Inverse_iterate_test (alpha u : ℝ) (sA : ℝ → ℝ → ℝ) (n : Nat) :
    (1.0e-5 : ℝ) < |(I_Dot_Inverse_after realLibm alpha u sA n).a
      - (I_Dot_Inverse_after realLibm alpha u sA n).b|
      ↔ (1.0e-5 : ℝ) < Real.pi / 2 / 2 ^ n := by
  obtain ⟨_, hab, _, _, hw⟩ := I_Dot_Inverse_iterate_inv alpha u sA n
  rw [abs_sub_comm, abs_of_nonneg (by linarith), hw]

theorem I_Dot_Inverse_loop_real (alpha u : ℝ) (sA : ℝ → ℝ → ℝ) (fuel : Nat)
    (hfuel : 18 ≤ fuel) :
    I_Dot_Inverse_loop realLibm alpha u sA fuel (I_Dot_Inverse_init realLibm)
      = some (I_Dot_Inverse_after realLibm alpha u sA 18) := by
  rw [I_Dot_Inverse_after]
  apply I_Dot_Inverse_loop_eq_iterate realLibm alpha u sA 18 fuel _ _ _ hfuel
  · intro i hi
    rw [← I_Dot_Inverse_after, I_Dot_Inverse_iterate_test]
    exact bracket_width_large i (by omega)
  · rw [← I_Dot_Inverse_after, I_Dot_Inverse_iterate_test]
    exact not_lt.2 bracket_width_small

/-- C7: for every `alpha`, `u` and `specularAlbedo`, each pass through the
loop body halves the bracket, which stays inside `[0, π/2]`; the loop runs
exactly 18 passes (17 do not end it, 18 do, more fuel changes nothing),
ends with `|a − b| = (π/2)/2^18 ≤ 1e-5` and returns the midpoint of the
final bracket, which lies in `[0, π/2]`. -/
theorem I_Dot_Inverse_terminates (alpha u : ℝ) (sA : ℝ → ℝ → ℝ) :
    (∀ n : Nat,
      (I_Dot_Inverse_after realLibm alpha u sA (n + 1)).b
        - (I_Dot_Inverse_after realLibm alpha u sA (n + 1)).a
        = ((I_Dot_Inverse_after realLibm alpha u sA n).b
          - (I_Dot_Inverse_after realLibm alpha u sA n).a) / 2 ∧
      0 ≤ (I_Dot_Inverse_after realLibm alpha u sA n).a ∧
      (I_Dot_Inverse_after realLibm alpha u sA n).a
        ≤ (I_Dot_Inverse_after realLibm alpha u sA n).b ∧
      (I_Dot_Inverse_after realLibm alpha u sA n).b
        ≤ Real.pi / 2) ∧
    I_Dot_Inverse_loop realLibm alpha u sA 17 (I_Dot_Inverse_init realLibm) = none ∧
    (∀ fuel : Nat, 18 ≤ fuel →
      I_Dot_Inverse_loop realLibm alpha u sA fuel (I_Dot_Inverse_init realLibm)
        = some (I_Dot_Inverse_after realLibm alpha u sA 18) ∧
      I_Dot_Inverse realLibm fuel alpha u sA
        = some (I_Dot_Inverse_after realLibm alpha u sA 18).c) ∧
    |(I_Dot_Inverse_after realLibm alpha u sA 18).a
      - (I_Dot_Inverse_after realLibm alpha u sA 18).b|
      ≤ 1.0e-5 ∧
    (I_Dot_Inverse_after realLibm alpha u sA 18).c
      = ((I_Dot_Inverse_after realLibm alpha u sA 18).a
        + (I_Dot_Inverse_after realLibm alpha u sA 18).b) / 2 ∧
    0 ≤ (I_Dot_Inverse_after realLibm alpha u sA 18).c ∧
    (I_Dot_Inverse_after realLibm alpha u sA 18).c
      ≤ Real.pi / 2 := by
  obtain ⟨h0, hab, hb, hc, hw⟩ := I_Dot_Inverse_iterate_inv alpha u sA 18
  refine ⟨?_, ?_, ?_, ?_, hc, ?_, ?_⟩
  · intro n
    obtain ⟨h0n, habn, hbn, hcn, _⟩ := I_Dot_Inverse_iterate_inv alpha u sA n
    refine ⟨?_, h0n, habn, hbn⟩
    rw [I_Dot_Inverse_after_succ]
    exact I_Dot_Inverse_body_width realLibm alpha u sA _ hcn
  · apply I_Dot_Inverse_loop_out_of_fuel
    intro i hi
    rw [← I_Dot_Inverse_after, I_Dot_Inverse_iterate_test]
    exact bracket_width_large i hi
  · intro fuel hfuel
    have h := I_Dot_Inverse_loop_real alpha u sA fuel hfuel
    refine ⟨h, ?_⟩
    simp only [I_Dot_Inverse, h, Option.map_some']
  · have := (I_Dot_Inverse_iterate_test alpha u sA 18).not.2 (not_lt.2 bracket_width_small)
    exact not_lt.1 this
  · rw [hc]; linarith
  · rw [hc]; linarith

/-! ## Monotonicity of the inverse in `u` -/

theorem DivResult.lt_mono (r : DivResult K) (u1 u2 : K) (h : u1 ≤ u2)
    (h1 : r.lt u1 = true) : r.lt u2 = true := by
  cases r with
  | finite v =>
    simp only [DivResult.lt, decide_eq_true_eq] at h1 ⊢
    exact lt_of_lt_of_le h1 h
  | posInf => simp [DivResult.lt] at h1
  | negInf => simp [DivResult.lt]
  | nan => simp [DivResult.lt] at h1

theorem I_Dot_Inverse_after_split (alpha u1 u2 : ℝ) (sA : ℝ → ℝ → ℝ) (h : u1 ≤ u2)
    (n : Nat) :
    I_Dot_Inverse_after realLibm alpha u1 sA n = I_Dot_Inverse_after realLibm alpha u2 sA n ∨
    (I_Dot_Inverse_after realLibm alpha u1 sA n).b
      ≤ (I_Dot_Inverse_after realLibm alpha u2 sA n).a := by
  induction n with
  | zero => left; rfl
  | succ n ih =>
    obtain ⟨_, hab1, _, hc1, _⟩ := I_Dot_Inverse_iterate_inv alpha u1 sA n
    obtain ⟨_, hab2, _, hc2, _⟩ := I_Dot_Inverse_iterate_inv alpha u2 sA n
    have hb1 := I_Dot_Inverse_body_bounds realLibm alpha u1 sA _ hab1 hc1
    have hb2 := I_Dot_Inverse_body_bounds realLibm alpha u2 sA _ hab2 hc2
    rw [I_Dot_Inverse_after_succ, I_Dot_Inverse_after_succ]
    rcases ih with heq | hlt
    · rw [heq] at hb1 ⊢
      by_cases p1 : (I_Dot realLibm (I_Dot_Inverse_after realLibm alpha u2 sA n).c alpha sA).lt u1
          = true
      · have p2 := DivResult.lt_mono _ u1 u2 h p1
        left
        simp only [I_Dot_Inverse_body, p1, p2, if_true]
      · by_cases p2 : (I_Dot realLibm (I_Dot_Inverse_after realLibm alpha u2 sA n).c alpha sA).lt
            u2 = true
        · right
          simp only [I_Dot_Inverse_body, p1, p2, if_true, if_false]
          exact le_refl _
        · left
          simp only [I_Dot_Inverse_body, p1, p2, if_false]
    · right
      linarith [hb1.2.2, hb2.1]

/-- C6: `I_Dot_Inverse` is monotone in `u`: for every `alpha`, every
`specularAlbedo` and all `u1 ≤ u2`, both calls return (any fuel of at least
18 passes) and the value for `u1` is at most the value for `u2`. -/
theorem I_Dot_Inverse_monotone (alpha u1 u2 : ℝ) (sA : ℝ → ℝ → ℝ) (h : u1 ≤ u2)
    (fuel : Nat) (hfuel : 18 ≤ fuel) :
    ∃ c1 c2, I_Dot_Inverse realLibm fuel alpha u1 sA = some c1 ∧
      I_Dot_Inverse realLibm fuel alpha u2 sA = some c2 ∧ c1 ≤ c2 := by
  refine ⟨(I_Dot_Inverse_after realLibm alpha u1 sA 18).c,
    (I_Dot_Inverse_after realLibm alpha u2 sA 18).c, ?_, ?_, ?_⟩
  · simp only [I_Dot_Inverse, I_Dot_Inverse_loop_real alpha u1 sA fuel hfuel, Option.map_some']
  · simp only [I_Dot_Inverse, I_Dot_Inverse_loop_real alpha u2 sA fuel hfuel, Option.map_some']
  · obtain ⟨_, hab1, _, hc1, _⟩ := I_Dot_Inverse_iterate_inv alpha u1 sA 18
    obtain ⟨_, hab2, _, hc2, _⟩ := I_Dot_Inverse_iterate_inv alpha u2 sA 18
    rcases I_Dot_Inverse_after_split alpha u1 u2 sA h 18 with heq | hlt
    · rw [heq]
    · rw [hc1, hc2]; linarith

/-- Instance of C6: `u1 = 0`, `u2 = 1`, the table that is 0 everywhere. -/
theorem I_Dot_Inverse_monotone_witness :
    (0 : ℝ) ≤ 1 ∧ 18 ≤ 18 ∧
    ∃ c1 c2, I_Dot_Inverse realLibm 18 (1 / 2) 0 (fun _ _ => 0) = some c1 ∧
      I_Dot_Inverse realLibm 18 (1 / 2) 1 (fun _ _ => 0) = some c2 ∧ c1 ≤ c2 :=
  ⟨by norm_num, by norm_num,
    I_Dot_Inverse_monotone (1 / 2) 0 1 (fun _ _ => 0) (by norm_num) 18 (by norm_num)⟩

/-! # Theorems: the quadrature `I` and the quotient `I_Dot` -/

/-! ## Composite Simpson rule: sign of the sum -/

theorem composite_simpson_eq_zero (f : K → K) (n : Nat) (a b : K) (hn : 0 < n)
    (hf : ∀ k : Nat, k ≤ n → f (a + (k : K) * ((b - a) / (n : K))) = 0) :
    composite_simpson f n a b = 0 := by
  have hn0 : (n : K) ≠ 0 := Nat.cast_ne_zero.2 (by omega)
  have ha : f a = 0 := by simpa using hf 0 (Nat.zero_le _)
  have hb : f b = 0 := by
    have h := hf n (le_refl _)
    have e : a + (n : K) * ((b - a) / (n : K)) = b := by field_simp
    rwa [e] at h
  have h1 : ∑ i in Finset.range (n / 2), f (a + ((2 * i + 1 : ℕ) : K) * ((b - a) / (n : K)))
      = 0 := by
    apply Finset.sum_eq_zero
    intro i hi
    have := Finset.mem_range.1 hi
    exact hf (2 * i + 1) (by omega)
  have h2 : ∑ i in Finset.range (n / 2 - 1),
      f (a + ((2 * i + 2 : ℕ) : K) * ((b - a) / (n : K))) = 0 := by
    apply Finset.sum_eq_zero
    intro i hi
    have := Finset.mem_range.1 hi
    exact hf (2 * i + 2) (by omega)
  simp only [composite_simpson, ha, hb, h1, h2]
  ring

theorem composite_simpson_nonneg (f : K → K) (n : Nat) (a b : K) (hn : 0 < n) (hab : a ≤ b)
    (hf : ∀ k : Nat, k ≤ n → 0 ≤ f (a + (k : K) * ((b - a) / (n : K)))) :
    0 ≤ composite_simpson f n a b := by
  have hn0 : (n : K) ≠ 0 := Nat.cast_ne_zero.2 (by omega)
  have hnpos : (0 : K) < n := Nat.cast_pos.2 hn
  have ha : 0 ≤ f a := by simpa using hf 0 (Nat.zero_le _)
  have hb : 0 ≤ f b := by
    have h := hf n (le_refl _)
    have e : a + (n : K) * ((b - a) / (n : K)) = b := by field_simp
    rwa [e] at h
  have h1 : 0 ≤ ∑ i in Finset.range (n / 2),
      f (a + ((2 * i + 1 : ℕ) : K) * ((b - a) / (n : K))) := by
    apply Finset.sum_nonneg
    intro i hi
    have := Finset.mem_range.1 hi
    exact hf (2 * i + 1) (by omega)
  have h2 : 0 ≤ ∑ i in Finset.range (n / 2 - 1),
      f (a + ((2 * i + 2 : ℕ) : K) * ((b - a) / (n : K))) := by
    apply Finset.sum_nonneg
    intro i hi
    have := Finset.mem_range.1 hi
    exact hf (2 * i + 2) (by omega)
  have hh : 0 ≤ (b - a) / (n : K) / 3 :=
    div_nonneg (div_nonneg (by linarith) hnpos.le) (by norm_num)
  simp only [composite_simpson]
  exact mul_nonneg hh (by linarith)

theorem composite_simpson_pos (f : K → K) (n : Nat) (a b : K) (hn : 0 < n) (hab : a < b)
    (hf : ∀ k : Nat, k ≤ n → 0 ≤ f (a + (k : K) * ((b - a) / (n : K))))
    (hpos : 0 < f a ∨ 0 < f b ∨
      ∃ i, i < n / 2 ∧ 0 < f (a + ((2 * i + 1 : ℕ) : K) * ((b - a) / (n : K)))) :
    0 < composite_simpson f n a b := by
  have hn0 : (n : K) ≠ 0 := Nat.cast_ne_zero.2 (by omega)
  have hnpos : (0 : K) < n := Nat.cast_pos.2 hn
  have ha : 0 ≤ f a := by simpa using hf 0 (Nat.zero_le _)
  have hb : 0 ≤ f b := by
    have h := hf n (le_refl _)
    have e : a + (n : K) * ((b - a) / (n : K)) = b := by field_simp
    rwa [e] at h
  have h1 : 0 ≤ ∑ i in Finset.range (n / 2),
      f (a + ((2 * i + 1 : ℕ) : K) * ((b - a) / (n : K))) := by
    apply Finset.sum_nonneg
    intro i hi
    have := Finset.mem_range.1 hi
    exact hf (2 * i + 1) (by omega)
  have h2 : 0 ≤ ∑ i in Finset.range (n / 2 - 1),
      f (a + ((2 * i + 2 : ℕ) : K) * ((b - a) / (n : K))) := by
    apply Finset.sum_nonneg
    intro i hi
    have := Finset.mem_range.1 hi
    exact hf (2 * i + 2) (by omega)
  have hh : 0 < (b - a) / (n : K) / 3 :=
    div_pos (div_pos (by linarith) hnpos) (by norm_num)
  simp only [composite_simpson]
  apply mul_pos hh
  rcases hpos with h | h | ⟨i, hi, h⟩
  · linarith
  · linarith
  · have hle : f (a + ((2 * i + 1 : ℕ) : K) * ((b - a) / (n : K)))
        ≤ ∑ j in Finset.range (n / 2),
          f (a + ((2 * j + 1 : ℕ) : K) * ((b - a) / (n : K))) := by
      apply Finset.single_le_sum (f := fun j : ℕ =>
        f (a + ((2 * j + 1 : ℕ) : K) * ((b - a) / (n : K))))
      · intro j hj
        have := Finset.mem_range.1 hj
        exact hf (2 * j + 1) (by omega)
      · exact Finset.mem_range.2 hi
    linarith

/-! ## The quadrature `I` over the reals -/

theorem one_lit : (1.0 : ℝ) = 1 := by norm_num

theorem zero_lit : (0.0 : ℝ) = 0 := by norm_num

theorem I_node (theta : ℝ) (k : Nat) :
    (0.0 : ℝ) + (k : ℝ) * ((theta - 0.0) / ((128 : ℕ) : ℝ)) = (k : ℝ) * theta / 128 := by
  norm_num
  ring

theorem I_node_mem (theta : ℝ) (h0 : 0 ≤ theta) (h1 : theta ≤ Real.pi / 2) (k : Nat)
    (hk : k ≤ 128) : 0 ≤ (k : ℝ) * theta / 128 ∧ (k : ℝ) * theta / 128 ≤ Real.pi / 2 := by
  have hk0 : (0 : ℝ) ≤ k := Nat.cast_nonneg k
  have hk1 : (k : ℝ) ≤ 128 := by exact_mod_cast hk
  constructor
  · positivity
  · have : (k : ℝ) * theta ≤ 128 * theta := mul_le_mul_of_nonneg_right hk1 h0
    linarith

theorem I_eq_zero (theta alpha : ℝ) (sA : ℝ → ℝ → ℝ)
    (h : ∀ k : Nat, k ≤ 128 →
      (1 - sA alpha (Real.cos ((k : ℝ) * theta / 128))) * Real.cos ((k : ℝ) * theta / 128) = 0) :
    I realLibm theta alpha sA = 0 := by
  apply composite_simpson_eq_zero _ 128 _ _ (by norm_num)
  intro k hk
  rw [I_node]
  have := h k hk
  simpa [realLibm, one_lit, zero_lit] using this

theorem I_zero_left (L : Libm K) (alpha : K) (sA : K → K → K) : I L 0 alpha sA = 0 := by
  simp only [I, composite_simpson]
  norm_num

theorem I_integrand_nonneg (alpha : ℝ) (sA : ℝ → ℝ → ℝ) (hsA : ∀ a c, sA a c ≤ 1)
    (x : ℝ) (h0 : 0 ≤ x) (h1 : x ≤ Real.pi / 2) :
    0 ≤ (1 - sA alpha (Real.cos x)) * Real.cos x := by
  have hc : 0 ≤ Real.cos x :=
    Real.cos_nonneg_of_mem_Icc ⟨by linarith [Real.pi_pos], h1⟩
  exact mul_nonneg (by linarith [hsA alpha (Real.cos x)]) hc

theorem I_nonneg (theta alpha : ℝ) (sA : ℝ → ℝ → ℝ) (hsA : ∀ a c, sA a c ≤ 1)
    (h0 : 0 ≤ theta) (h1 : theta ≤ Real.pi / 2) : 0 ≤ I realLibm theta alpha sA := by
  apply composite_simpson_nonneg _ 128 _ _ (by norm_num) (by norm_num; exact h0)
  intro k hk
  rw [I_node]
  obtain ⟨hx0, hx1⟩ := I_node_mem theta h0 h1 k hk
  have := I_integrand_nonneg alpha sA hsA _ hx0 hx1
  simpa [realLibm, one_lit, zero_lit] using this

theorem I_pos (theta alpha : ℝ) (sA : ℝ → ℝ → ℝ) (hsA : ∀ a c, sA a c ≤ 1)
    (h0 : 0 < theta) (h1 : theta ≤ Real.pi / 2)
    (hpos : 0 < (1 - sA alpha (Real.cos 0)) * Real.cos 0 ∨
      0 < (1 - sA alpha (Real.cos theta)) * Real.cos theta ∨
      ∃ i : Nat, i < 64 ∧
        0 < (1 - sA alpha (Real.cos (((2 * i + 1 : ℕ) : ℝ) * theta / 128)))
          * Real.cos (((2 * i + 1 : ℕ) : ℝ) * theta / 128)) :
    0 < I realLibm theta alpha sA := by
  apply composite_simpson_pos _ 128 _ _ (by norm_num) (by norm_num; exact h0)
  · intro k hk
    rw [I_node]
    obtain ⟨hx0, hx1⟩ := I_node_mem theta h0.le h1 k hk
    have := I_integrand_nonneg alpha sA hsA _ hx0 hx1
    simpa [realLibm, one_lit, zero_lit] using this
  · rcases hpos with h | h | ⟨i, hi, h⟩
    · left; simpa [realLibm, one_lit, zero_lit] using h
    · right; left; simpa [realLibm, one_lit, zero_lit] using h
    · right; right
      refine ⟨i, by omega, ?_⟩
      rw [I_node]
      simpa [realLibm, one_lit, zero_lit] using h

/-! ## Endpoints of `I_Dot` -/

theorem I_Dot_all_ones (theta alpha : ℝ) :
    I_Dot realLibm theta alpha (fun _ _ => 1) = DivResult.nan := by
  have hz : ∀ t : ℝ, I realLibm t alpha (fun _ _ => 1) = 0 := by
    intro t
    apply I_eq_zero
    intro k _
    norm_num
  simp only [I_Dot, fdiv, hz, if_true, lt_self_iff_false, if_false]

/-- C9 as worded fails: the table that is 1 everywhere has values in
`[0, 1]`, yet `I(π/2) = 0` and the quotient `I_Dot` is `0/0`, not a number,
at both endpoints. -/
theorem I_Dot_endpoints_all_ones :
    (∀ a c : ℝ, 0 ≤ (fun _ _ => (1 : ℝ)) a c ∧ (fun _ _ => (1 : ℝ)) a c ≤ 1) ∧
    I_Dot realLibm (Real.pi / 2) (1 / 2) (fun _ _ => 1) = DivResult.nan ∧
    I_Dot realLibm (Real.pi / 2) (1 / 2) (fun _ _ => 1) ≠ DivResult.finite 1 ∧
    I_Dot realLibm 0 (1 / 2) (fun _ _ => 1) ≠ DivResult.finite 0 := by
  refine ⟨fun _ _ => ⟨by norm_num, by norm_num⟩, I_Dot_all_ones _ _, ?_, ?_⟩
  · rw [I_Dot_all_ones]; exact fun h => DivResult.noConfusion h
  · rw [I_Dot_all_ones]; exact fun h => DivResult.noConfusion h

/-- C9 amended: for every `alpha` and every `specularAlbedo` whose
normalisation `I(π/2, alpha)` is not zero, `I_Dot(0, alpha) = 0` and
`I_Dot(π/2, alpha) = 1`. -/
theorem I_Dot_endpoints (alpha : ℝ) (sA : ℝ → ℝ → ℝ)
    (h : I realLibm (Real.pi / 2) alpha sA ≠ 0) :
    I_Dot realLibm 0 alpha sA = DivResult.finite 0 ∧
    I_Dot realLibm (Real.pi / 2) alpha sA = DivResult.finite 1 := by
  have e : realLibm.pi * 0.5 = Real.pi / 2 := by
    simp only [realLibm]; norm_num; ring
  constructor
  · simp only [I_Dot, fdiv, e, if_neg h, I_zero_left, zero_div]
  · simp only [I_Dot, fdiv, e, if_neg h, div_self h]

theorem I_half_pi_pos_of_zero_albedo :
    0 < I realLibm (Real.pi / 2) (1 / 2) (fun _ _ => 0) := by
  apply I_pos _ _ _ (fun _ _ => by norm_num) (by positivity) (le_refl _)
  left
  norm_num

/-- Instance of C9 amended: the table that is 0 everywhere, `alpha = 1/2`. -/
theorem I_Dot_endpoints_witness :
    I realLibm (Real.pi / 2) (1 / 2) (fun _ _ => 0) ≠ 0 ∧
    I_Dot realLibm 0 (1 / 2) (fun _ _ => 0) = DivResult.finite 0 ∧
    I_Dot realLibm (Real.pi / 2) (1 / 2) (fun _ _ => 0) = DivResult.finite 1 :=
  ⟨ne_of_gt I_half_pi_pos_of_zero_albedo,
    I_Dot_endpoints (1 / 2) (fun _ _ => 0) (ne_of_gt I_half_pi_pos_of_zero_albedo)⟩

/-! ## A table that is below 1 at a single quadrature node -/

theorem half_pi_lit : realLibm.pi * 0.5 = Real.pi / 2 := by
  simp only [realLibm]
  norm_num
  ring

theorem pointAlbedo_le_one (c0 : ℝ) (a c : ℝ) :
    0 ≤ pointAlbedo c0 a c ∧ pointAlbedo c0 a c ≤ 1 := by
  simp only [pointAlbedo]
  split_ifs <;> norm_num

theorem cos_node_pos : 0 < Real.cos (Real.pi / 2 * (101 / 128)) := by
  have hpi := Real.pi_pos
  apply Real.cos_pos_of_mem_Ioo
  constructor <;> nlinarith

theorem point_integrand_zero (alpha x : ℝ) (hx0 : 0 ≤ x) (hx1 : x ≤ Real.pi / 2)
    (hne : x ≠ Real.pi / 2 * (101 / 128)) :
    (1 - pointAlbedo (Real.cos (Real.pi / 2 * (101 / 128))) alpha (Real.cos x)) * Real.cos x
      = 0 := by
  have hpi := Real.pi_pos
  have hcos : Real.cos x ≠ Real.cos (Real.pi / 2 * (101 / 128)) := by
    intro h
    apply hne
    apply Real.injOn_cos _ _ h
    · exact ⟨hx0, by linarith⟩
    · constructor <;> nlinarith
  simp only [pointAlbedo, if_neg hcos]
  ring

theorem point_integrand_at_node (alpha : ℝ) :
    (1 - pointAlbedo (Real.cos (Real.pi / 2 * (101 / 128))) alpha
        (Real.cos (Real.pi / 2 * (101 / 128)))) * Real.cos (Real.pi / 2 * (101 / 128))
      = Real.cos (Real.pi / 2 * (101 / 128)) := by
  simp only [pointAlbedo, if_true]
  ring

theorem point_I_zero (alpha r : ℝ) (hr0 : 0 ≤ r) (hr1 : r ≤ 1)
    (h : ∀ k : Nat, k ≤ 128 → (k : ℝ) * r ≠ 101) :
    I realLibm (Real.pi / 2 * r) alpha
      (pointAlbedo (Real.cos (Real.pi / 2 * (101 / 128)))) = 0 := by
  have hpi := Real.pi_pos
  apply I_eq_zero
  intro k hk
  have hθ0 : 0 ≤ Real.pi / 2 * r := by positivity
  have hθ1 : Real.pi / 2 * r ≤ Real.pi / 2 := by nlinarith
  obtain ⟨hx0, hx1⟩ := I_node_mem _ hθ0 hθ1 k hk
  apply point_integrand_zero alpha _ hx0 hx1
  intro hx
  apply h k hk
  have hpi0 : Real.pi ≠ 0 := ne_of_gt hpi
  field_simp at hx
  nlinarith

theorem point_I_half_pi_pos (alpha : ℝ) :
    0 < I realLibm (Real.pi / 2) alpha (pointAlbedo (Real.cos (Real.pi / 2 * (101 / 128)))) := by
  apply I_pos _ _ _ (fun a c => (pointAlbedo_le_one _ a c).2) (by positivity) (le_refl _)
  right; right
  refine ⟨50, by norm_num, ?_⟩
  have e : ((2 * 50 + 1 : ℕ) : ℝ) * (Real.pi / 2) / 128 = Real.pi / 2 * (101 / 128) := by
    norm_num
    ring
  rw [e, point_integrand_at_node]
  exact cos_node_pos

theorem point_I_at_node_pos (alpha : ℝ) :
    0 < I realLibm (Real.pi / 2 * (101 / 128)) alpha
      (pointAlbedo (Real.cos (Real.pi / 2 * (101 / 128)))) := by
  have hpi := Real.pi_pos
  apply I_pos _ _ _ (fun a c => (pointAlbedo_le_one _ a c).2) (by positivity) (by nlinarith)
  right; left
  rw [point_integrand_at_node]
  exact cos_node_pos

theorem point_I_Dot_zero (alpha r : ℝ) (hr0 : 0 ≤ r) (hr1 : r ≤ 1)
    (h : ∀ k : Nat, k ≤ 128 → (k : ℝ) * r ≠ 101) :
    I_Dot realLibm (Real.pi / 2 * r) alpha
      (pointAlbedo (Real.cos (Real.pi / 2 * (101 / 128)))) = DivResult.finite 0 := by
  simp only [I_Dot, fdiv, half_pi_lit, if_neg (ne_of_gt (point_I_half_pi_pos alpha)),
    point_I_zero alpha r hr0 hr1 h, zero_div]

/-! ## Monotonicity of `I_Dot` in the angle -/

/-- C8 as worded fails: for the table that is 0 where the cosine is
`cos (101π/256)` and 1 elsewhere (values in `[0, 1]`), `θ1 = 101π/256` is a
node of its own sum, so `I_Dot(θ1) > 0`, while no node of the sum for the
larger `θ2 = 7π/16` hits that cosine, so `I_Dot(θ2) = 0`. -/
theorem I_Dot_not_monotone :
    (∀ a c : ℝ, 0 ≤ pointAlbedo (Real.cos (Real.pi / 2 * (101 / 128))) a c ∧
      pointAlbedo (Real.cos (Real.pi / 2 * (101 / 128))) a c ≤ 1) ∧
    0 ≤ Real.pi / 2 * (101 / 128) ∧
    Real.pi / 2 * (101 / 128) ≤ Real.pi / 2 * (7 / 8) ∧
    Real.pi / 2 * (7 / 8) ≤ Real.pi / 2 ∧
    ∃ v1 v2 : ℝ,
      I_Dot realLibm (Real.pi / 2 * (101 / 128)) (1 / 2)
        (pointAlbedo (Real.cos (Real.pi / 2 * (101 / 128)))) = DivResult.finite v1 ∧
      I_Dot realLibm (Real.pi / 2 * (7 / 8)) (1 / 2)
        (pointAlbedo (Real.cos (Real.pi / 2 * (101 / 128)))) = DivResult.finite v2 ∧
      v2 < v1 := by
  have hpi := Real.pi_pos
  refine ⟨fun a c => pointAlbedo_le_one _ a c, by positivity, by nlinarith, by nlinarith,
    I realLibm (Real.pi / 2 * (101 / 128)) (1 / 2)
        (pointAlbedo (Real.cos (Real.pi / 2 * (101 / 128))))
      / I realLibm (Real.pi / 2) (1 / 2) (pointAlbedo (Real.cos (Real.pi / 2 * (101 / 128)))),
    0, ?_, ?_, ?_⟩
  · simp only [I_Dot, fdiv, half_pi_lit, if_neg (ne_of_gt (point_I_half_pi_pos (1 / 2)))]
  · apply point_I_Dot_zero _ _ (by norm_num) (by norm_num)
    intro k hk hkr
    have h7 : (k : ℝ) * 7 = 808 := by linarith
    have h7n : k * 7 = 808 := by exact_mod_cast h7
    omega
  · exact div_pos (point_I_at_node_pos _) (point_I_half_pi_pos _)

/-- C8 amended: for every `alpha`, every `specularAlbedo` with values in
`[0, 1]` whose normalisation `I(π/2, alpha)` is not zero, and every `θ` in
`[0, π/2]`, `I_Dot(0, alpha) = 0 ≤ I_Dot(θ, alpha)`. -/
theorem I_Dot_zero_le (alpha theta : ℝ) (sA : ℝ → ℝ → ℝ)
    (hsA : ∀ a c, 0 ≤ sA a c ∧ sA a c ≤ 1)
    (hI : I realLibm (Real.pi / 2) alpha sA ≠ 0)
    (h0 : 0 ≤ theta) (h1 : theta ≤ Real.pi / 2) :
    ∃ v : ℝ, I_Dot realLibm 0 alpha sA = DivResult.finite 0 ∧
      I_Dot realLibm theta alpha sA = DivResult.finite v ∧ 0 ≤ v := by
  have hpi := Real.pi_pos
  have hden : 0 ≤ I realLibm (Real.pi / 2) alpha sA :=
    I_nonneg _ _ _ (fun a c => (hsA a c).2) (by positivity) (le_refl _)
  refine ⟨I realLibm theta alpha sA / I realLibm (Real.pi / 2) alpha sA, ?_, ?_, ?_⟩
  · simp only [I_Dot, fdiv, half_pi_lit, if_neg hI, I_zero_left, zero_div]
  · simp only [I_Dot, fdiv, half_pi_lit, if_neg hI]
  · exact div_nonneg (I_nonneg _ _ _ (fun a c => (hsA a c).2) h0 h1) hden

/-- Instance of C8 amended: the table that is 0 everywhere, `θ = 1`. -/
theorem I_Dot_zero_le_witness :
    (∀ a c : ℝ, 0 ≤ (fun _ _ => (0 : ℝ)) a c ∧ (fun _ _ => (0 : ℝ)) a c ≤ 1) ∧
    I realLibm (Real.pi / 2) (1 / 2) (fun _ _ => 0) ≠ 0 ∧
    (0 : ℝ) ≤ 1 ∧ (1 : ℝ) ≤ Real.pi / 2 ∧
    ∃ v : ℝ, I_Dot realLibm 0 (1 / 2) (fun _ _ => 0) = DivResult.finite 0 ∧
      I_Dot realLibm 1 (1 / 2) (fun _ _ => 0) = DivResult.finite v ∧ 0 ≤ v :=
  ⟨fun _ _ => ⟨le_refl _, zero_le_one⟩, ne_of_gt I_half_pi_pos_of_zero_albedo, zero_le_one,
    by linarith [Real.pi_gt_three],
    I_Dot_zero_le (1 / 2) 1 (fun _ _ => 0) (fun _ _ => ⟨le_refl _, zero_le_one⟩)
      (ne_of_gt I_half_pi_pos_of_zero_albedo) zero_le_one (by linarith [Real.pi_gt_three])⟩

/-! ## Inverse consistency -/

theorem I_Dot_Inverse_after_sign (alpha u : ℝ) (sA : ℝ → ℝ → ℝ) (n : Nat) :
    ((I_Dot_Inverse_after realLibm alpha u sA n).a = 0 ∨
      (I_Dot realLibm (I_Dot_Inverse_after realLibm alpha u sA n).a alpha sA).lt u = true) ∧
    ((I_Dot_Inverse_after realLibm alpha u sA n).b = Real.pi / 2 ∨
      (I_Dot realLibm (I_Dot_Inverse_after realLibm alpha u sA n).b alpha sA).lt u = false) := by
  induction n with
  | zero =>
    constructor
    · left
      simp only [I_Dot_Inverse_after, Function.iterate_zero, id_eq, I_Dot_Inverse_init, zero_lit]
    · left
      simp only [I_Dot_Inverse_after, Function.iterate_zero, id_eq, I_Dot_Inverse_init,
        half_pi_lit]
  | succ n ih =>
    rw [I_Dot_Inverse_after_succ]
    by_cases p : (I_Dot realLibm (I_Dot_Inverse_after realLibm alpha u sA n).c alpha sA).lt u = true
    · simp only [I_Dot_Inverse_body, if_pos p]
      exact ⟨Or.inr p, ih.2⟩
    · simp only [I_Dot_Inverse_body, if_neg p]
      exact ⟨ih.1, Or.inr (by simpa using p)⟩

/-- C5 amended: for every `alpha`, `u` and `specularAlbedo`, `I_Dot_Inverse`
returns the midpoint `θ` of a bracket `[a, b]` inside `[0, π/2]` of width at
most `1e-5` with `I_Dot(a) < u` unless `a = 0`, and not `I_Dot(b) < u`
unless `b = π/2`: the tolerance is on `θ`, there is none on `I_Dot(θ)`. -/
theorem I_Dot_Inverse_bracket (alpha u : ℝ) (sA : ℝ → ℝ → ℝ) (fuel : Nat)
    (hfuel : 18 ≤ fuel) :
    ∃ s : Bracket ℝ,
      I_Dot_Inverse_loop realLibm alpha u sA fuel (I_Dot_Inverse_init realLibm) = some s ∧
      I_Dot_Inverse realLibm fuel alpha u sA = some s.c ∧ s.c = (s.a + s.b) / 2 ∧
      0 ≤ s.a ∧ s.a ≤ s.c ∧ s.c ≤ s.b ∧ s.b ≤ Real.pi / 2 ∧ s.b - s.a ≤ 1.0e-5 ∧
      (s.a = 0 ∨ (I_Dot realLibm s.a alpha sA).lt u = true) ∧
      (s.b = Real.pi / 2 ∨ (I_Dot realLibm s.b alpha sA).lt u = false) := by
  obtain ⟨h0, hab, hb, hc, hw⟩ := I_Dot_Inverse_iterate_inv alpha u sA 18
  have hloop := I_Dot_Inverse_loop_real alpha u sA fuel hfuel
  obtain ⟨hsa, hsb⟩ := I_Dot_Inverse_after_sign alpha u sA 18
  refine ⟨I_Dot_Inverse_after realLibm alpha u sA 18, hloop, ?_, hc, h0, ?_, ?_, hb, ?_, hsa,
    hsb⟩
  · simp only [I_Dot_Inverse, hloop, Option.map_some']
  · rw [hc]; linarith
  · rw [hc]; linarith
  · rw [hw]; exact bracket_width_small

/-- Instance of C5 amended: the table that is 0 everywhere, `alpha = u = 1/2`,
fuel for 18 passes. -/
theorem I_Dot_Inverse_bracket_witness :
    18 ≤ 18 ∧
    ∃ s : Bracket ℝ,
      I_Dot_Inverse_loop realLibm (1 / 2) (1 / 2) (fun _ _ => 0) 18 (I_Dot_Inverse_init realLibm)
        = some s ∧
      I_Dot_Inverse realLibm 18 (1 / 2) (1 / 2) (fun _ _ => 0) = some s.c ∧
      s.c = (s.a + s.b) / 2 ∧
      0 ≤ s.a ∧ s.a ≤ s.c ∧ s.c ≤ s.b ∧ s.b ≤ Real.pi / 2 ∧ s.b - s.a ≤ 1.0e-5 ∧
      (s.a = 0 ∨ (I_Dot realLibm s.a (1 / 2) (fun _ _ => 0)).lt (1 / 2) = true) ∧
      (s.b = Real.pi / 2 ∨ (I_Dot realLibm s.b (1 / 2) (fun _ _ => 0)).lt (1 / 2) = false) :=
  ⟨le_refl 18, I_Dot_Inverse_bracket (1 / 2) (1 / 2) (fun _ _ => 0) 18 (le_refl 18)⟩

theorem node_miss_nat (J k : Nat) (hJ1 : 1 ≤ J) (hJ : J ≤ 19) (hk : k ≤ 128) :
    k * 2 ^ J ≠ 101 * 2 ^ J + k := by
  interval_cases J <;> omega

theorem node_miss (J k : Nat) (hJ1 : 1 ≤ J) (hJ : J ≤ 19) (hk : k ≤ 128) :
    (k : ℝ) * (1 - 1 / 2 ^ J) ≠ 101 := by
  intro h
  apply node_miss_nat J k hJ1 hJ hk
  have h2 : (0 : ℝ) < 2 ^ J := by positivity
  have h3 : (k : ℝ) * 2 ^ J = 101 * 2 ^ J + k := by
    field_simp at h
    linarith
  exact_mod_cast h3

theorem dyadic_mem (J : Nat) : (0 : ℝ) ≤ 1 - 1 / 2 ^ J ∧ (1 : ℝ) - 1 / 2 ^ J ≤ 1 := by
  have h1 : (1 : ℝ) ≤ 2 ^ J := one_le_pow₀ (by norm_num)
  have h2 : (0 : ℝ) < 2 ^ J := by positivity
  have h3 : (1 : ℝ) / 2 ^ J ≤ 1 := by rw [div_le_one h2]; exact h1
  have h4 : (0 : ℝ) ≤ 1 / 2 ^ J := by positivity
  constructor <;> linarith

theorem point_after (n : Nat) (hn : n ≤ 18) :
    I_Dot_Inverse_after realLibm (1 / 2) 1
        (pointAlbedo (Real.cos (Real.pi / 2 * (101 / 128)))) n
      = ⟨Real.pi / 2 * (1 - 1 / 2 ^ n), Real.pi / 2, Real.pi / 2 * (1 - 1 / 2 ^ (n + 1))⟩ := by
  induction n with
  | zero =>
    simp only [I_Dot_Inverse_after, Function.iterate_zero, id_eq, I_Dot_Inverse_init, zero_lit,
      half_pi_lit]
    norm_num
  | succ n ih =>
    rw [I_Dot_Inverse_after_succ, ih (by omega)]
    have hz := point_I_Dot_zero (1 / 2) (1 - 1 / 2 ^ (n + 1)) (dyadic_mem _).1 (dyadic_mem _).2
      (fun k hk => node_miss (n + 1) k (by omega) (by omega) hk)
    simp only [I_Dot_Inverse_body, hz, DivResult.lt, zero_lt_one, decide_True, if_true]
    have e : (Real.pi / 2 * (1 - 1 / 2 ^ (n + 1)) + Real.pi / 2) * 0.5
        = Real.pi / 2 * (1 - 1 / 2 ^ (n + 1 + 1)) := by
      rw [pow_succ 2 (n + 1)]
      norm_num
      ring
    rw [e]

/-- C5 as worded fails.  For `alpha = 1/2`, `u = 1` and the table that is 0
where the cosine is `cos (101π/256)` and 1 elsewhere (values in `[0, 1]`),
every midpoint of the bisection has `I_Dot = 0 < u`, the function returns
`θ = (π/2)(1 − 2⁻¹⁹)` and `I_Dot(θ) = 0`, at distance 1 from `u`.  For the
table that is 1 everywhere, `I_Dot` of the returned angle is `0/0`, not a
number. -/
theorem I_Dot_Inverse_not_consistent :
    ((0 : ℝ) < 1 / 2 ∧ (1 / 2 : ℝ) < Real.pi / 2) ∧
    ((0 : ℝ) ≤ 1 ∧ (1 : ℝ) ≤ 1) ∧
    (∀ a c : ℝ, 0 ≤ pointAlbedo (Real.cos (Real.pi / 2 * (101 / 128))) a c ∧
      pointAlbedo (Real.cos (Real.pi / 2 * (101 / 128))) a c ≤ 1) ∧
    (∃ theta v : ℝ,
      I_Dot_Inverse realLibm 18 (1 / 2) 1 (pointAlbedo (Real.cos (Real.pi / 2 * (101 / 128))))
        = some theta ∧
      I_Dot realLibm theta (1 / 2) (pointAlbedo (Real.cos (Real.pi / 2 * (101 / 128))))
        = DivResult.finite v ∧
      ¬ |v - 1| ≤ 1.0e-4) ∧
    (∃ theta : ℝ,
      I_Dot_Inverse realLibm 18 (1 / 2) 1 (fun _ _ => 1) = some theta ∧
      I_Dot realLibm theta (1 / 2) (fun _ _ => 1) = DivResult.nan) := by
  have hpi := Real.pi_gt_three
  refine ⟨⟨by norm_num, by linarith⟩, ⟨by norm_num, by norm_num⟩,
    fun a c => pointAlbedo_le_one _ a c,
    ⟨Real.pi / 2 * (1 - 1 / 2 ^ 19), 0, ?_, ?_, by norm_num⟩,
    ⟨(I_Dot_Inverse_after realLibm (1 / 2) 1 (fun _ _ => 1) 18).c, ?_, I_Dot_all_ones _ _⟩⟩
  · have hloop := I_Dot_Inverse_loop_real (1 / 2) 1
      (pointAlbedo (Real.cos (Real.pi / 2 * (101 / 128)))) 18 (le_refl 18)
    simp only [I_Dot_Inverse, hloop, Option.map_some', point_after 18 (le_refl 18)]
  · exact point_I_Dot_zero (1 / 2) (1 - 1 / 2 ^ 19) (dyadic_mem _).1 (dyadic_mem _).2
      (fun k hk => node_miss 19 k (by norm_num) (le_refl 19) hk)
  · have hloop := I_Dot_Inverse_loop_real (1 / 2) 1 (fun _ _ => 1) 18 (le_refl 18)
    simp only [I_Dot_Inverse, hloop, Option.map_some']

/-! # Theorems: energy conservation of the coupled conductor -/

theorem integral_cos_mul_sin_quarter :
    ∫ θ in (0 : ℝ)..(Real.pi / 2), Real.cos θ * Real.sin θ = 1 / 2 := by
  have h : ∫ θ in (0 : ℝ)..(Real.pi / 2), Real.sin θ * Real.cos θ = 1 / 2 := by
    rw [integral_sin_mul_cos₁]
    norm_num
  rw [← h]
  congr 1
  funext θ
  ring

theorem conductor_brdf_diff_no_fresnel (mf : Microfacet ℝ) (tb : CoupledBRDF ℝ)
    (m : MicrofacetCoupledConductorMaterial ℝ) (wo wi : dvec3 ℝ) (hF : m.useFresnel = false) :
    m.brdf_diff realLibm mf tb wo wi
      = dvec3.splat ((1 - tb.specularAlbedo m.alpha (dvec3.dot m.Ng wo))
          * (1 - tb.specularAlbedo m.alpha (dvec3.dot m.Ng wi))
          / (Real.pi * (1 - tb.specularAvgAlbedo m.alpha))) := by
  simp only [MicrofacetCoupledConductorMaterial.brdf_diff,
    MicrofacetCoupledConductorMaterial.kLambda, hF, dvec3.splat, dvec3.scale_def,
    dvec3.shrink_def, realLibm, one_lit]
  norm_num

theorem conductor_brdf_spec_no_fresnel (mf : Microfacet ℝ)
    (m : MicrofacetCoupledConductorMaterial ℝ) (wo wi : dvec3 ℝ) (hF : m.useFresnel = false) :
    (m.brdf_spec realLibm mf wo wi).y = (m.brdf_spec realLibm mf wo wi).x ∧
    (m.brdf_spec realLibm mf wo wi).z = (m.brdf_spec realLibm mf wo wi).x := by
  simp [MicrofacetCoupledConductorMaterial.brdf_spec, hF, dvec3.splat]

theorem hemisphere_compensation (tb : CoupledBRDF ℝ) (alpha eo : ℝ)
    (hint : IntervalIntegrable
      (fun θ => tb.specularAlbedo alpha (Real.cos θ) * Real.cos θ * Real.sin θ)
      MeasureTheory.volume 0 (Real.pi / 2))
    (havg : tb.specularAvgAlbedo alpha
      = 2 * ∫ θ in (0 : ℝ)..(Real.pi / 2),
          tb.specularAlbedo alpha (Real.cos θ) * Real.cos θ * Real.sin θ)
    (hlt : tb.specularAvgAlbedo alpha < 1) :
    ∫ θ in (0 : ℝ)..(Real.pi / 2),
        (1 - eo) * (1 - tb.specularAlbedo alpha (Real.cos θ))
          / (Real.pi * (1 - tb.specularAvgAlbedo alpha)) * Real.cos θ * Real.sin θ
      = (1 - eo) / (2 * Real.pi) := by
  have hpi := Real.pi_pos
  have hA : 1 - tb.specularAvgAlbedo alpha ≠ 0 := by linarith
  have hcs : IntervalIntegrable (fun θ => Real.cos θ * Real.sin θ)
      MeasureTheory.volume 0 (Real.pi / 2) :=
    (Real.continuous_cos.mul Real.continuous_sin).intervalIntegrable _ _
  have e : (fun θ => (1 - eo) * (1 - tb.specularAlbedo alpha (Real.cos θ))
        / (Real.pi * (1 - tb.specularAvgAlbedo alpha)) * Real.cos θ * Real.sin θ)
      = fun θ => (1 - eo) / (Real.pi * (1 - tb.specularAvgAlbedo alpha))
        * (Real.cos θ * Real.sin θ
          - tb.specularAlbedo alpha (Real.cos θ) * Real.cos θ * Real.sin θ) := by
    funext θ
    ring
  rw [e, intervalIntegral.integral_const_mul, intervalIntegral.integral_sub hcs hint,
    integral_cos_mul_sin_quarter]
  have h2 : ∫ θ in (0 : ℝ)..(Real.pi / 2),
      tb.specularAlbedo alpha (Real.cos θ) * Real.cos θ * Real.sin θ
      = tb.specularAvgAlbedo alpha / 2 := by
    rw [havg]; ring
  rw [h2]
  field_simp
  ring

/-- C1: for the coupled conductor with `useFresnel = false`, every `alpha`
and every `wo` above the surface: if `avgAlbedo(α)` equals
`2·∫₀^{π/2} albedo2D(α, cos θ)·cos θ·sin θ dθ` (the integral existing) and is
below 1, the compensation lobe of `bxdf` integrates, cosine weighted over
the hemisphere of `wi`, to `1 − albedo2D(α, cos θo)` in every channel; if
moreover `albedo2D(α, cos θo)` is the cosine weighted hemispherical integral
of the specular lobe, `bxdf` itself integrates to exactly 1 in every
channel.  The hemisphere is any family `dir θ φ` of directions at polar
angle `θ` from `Ng`. -/
theorem furnace_test (mf : Microfacet ℝ) (tb : CoupledBRDF ℝ)
    (m : MicrofacetCoupledConductorMaterial ℝ) (wo : dvec3 ℝ) (dir : ℝ → ℝ → dvec3 ℝ)
    (hF : m.useFresnel = false)
    (hwo : 0 < dvec3.dot m.Ng wo)
    (hdir : ∀ θ φ, dvec3.dot m.Ng (dir θ φ) = Real.cos θ)
    (hint : IntervalIntegrable
      (fun θ => tb.specularAlbedo m.alpha (Real.cos θ) * Real.cos θ * Real.sin θ)
      MeasureTheory.volume 0 (Real.pi / 2))
    (havg : tb.specularAvgAlbedo m.alpha
      = 2 * ∫ θ in (0 : ℝ)..(Real.pi / 2),
          tb.specularAlbedo m.alpha (Real.cos θ) * Real.cos θ * Real.sin θ)
    (hlt : tb.specularAvgAlbedo m.alpha < 1)
    (hs1 : ∀ φ, IntervalIntegrable
      (fun θ => (m.brdf_spec realLibm mf wo (dir θ φ)).x * Real.cos θ * Real.sin θ)
      MeasureTheory.volume 0 (Real.pi / 2))
    (hs2 : IntervalIntegrable
      (fun φ => ∫ θ in (0 : ℝ)..(Real.pi / 2),
        (m.brdf_spec realLibm mf wo (dir θ φ)).x * Real.cos θ * Real.sin θ)
      MeasureTheory.volume 0 (2 * Real.pi))
    (hspec : hemisphere dir (fun wi => (m.brdf_spec realLibm mf wo wi).x)
      = tb.specularAlbedo m.alpha (dvec3.dot m.Ng wo)) :
    (hemisphere dir (fun wi => (m.brdf_diff realLibm mf tb wo wi).x)
        = 1 - tb.specularAlbedo m.alpha (dvec3.dot m.Ng wo) ∧
      hemisphere dir (fun wi => (m.brdf_diff realLibm mf tb wo wi).y)
        = 1 - tb.specularAlbedo m.alpha (dvec3.dot m.Ng wo) ∧
      hemisphere dir (fun wi => (m.brdf_diff realLibm mf tb wo wi).z)
        = 1 - tb.specularAlbedo m.alpha (dvec3.dot m.Ng wo)) ∧
    (hemisphere dir (fun wi => (m.bxdf realLibm mf tb wo wi).x) = 1 ∧
      hemisphere dir (fun wi => (m.bxdf realLibm mf tb wo wi).y) = 1 ∧
      hemisphere dir (fun wi => (m.bxdf realLibm mf tb wo wi).z) = 1) := by
  have hpi := Real.pi_pos
  -- the compensation lobe, one channel
  have hc : ∀ φ : ℝ, ∫ θ in (0 : ℝ)..(Real.pi / 2),
      (1 - tb.specularAlbedo m.alpha (dvec3.dot m.Ng wo))
        * (1 - tb.specularAlbedo m.alpha (dvec3.dot m.Ng (dir θ φ)))
        / (Real.pi * (1 - tb.specularAvgAlbedo m.alpha)) * Real.cos θ * Real.sin θ
      = (1 - tb.specularAlbedo m.alpha (dvec3.dot m.Ng wo)) / (2 * Real.pi) := by
    intro φ
    simp only [hdir]
    exact hemisphere_compensation tb m.alpha _ hint havg hlt
  have hcomp : (∫ φ in (0 : ℝ)..(2 * Real.pi), ∫ θ in (0 : ℝ)..(Real.pi / 2),
      (1 - tb.specularAlbedo m.alpha (dvec3.dot m.Ng wo))
        * (1 - tb.specularAlbedo m.alpha (dvec3.dot m.Ng (dir θ φ)))
        / (Real.pi * (1 - tb.specularAvgAlbedo m.alpha)) * Real.cos θ * Real.sin θ)
      = 1 - tb.specularAlbedo m.alpha (dvec3.dot m.Ng wo) := by
    simp only [hc, intervalIntegral.integral_const, smul_eq_mul]
    field_simp
  have hdiff : hemisphere dir (fun wi => (m.brdf_diff realLibm mf tb wo wi).x)
      = 1 - tb.specularAlbedo m.alpha (dvec3.dot m.Ng wo) := by
    simp only [hemisphere, conductor_brdf_diff_no_fresnel mf tb m wo _ hF, dvec3.splat]
    exact hcomp
  -- the whole bxdf, one channel
  have hci : IntervalIntegrable (fun θ =>
      (1 - tb.specularAlbedo m.alpha (dvec3.dot m.Ng wo))
        * (1 - tb.specularAlbedo m.alpha (Real.cos θ))
        / (Real.pi * (1 - tb.specularAvgAlbedo m.alpha)) * Real.cos θ * Real.sin θ)
      MeasureTheory.volume 0 (Real.pi / 2) := by
    have hcs : IntervalIntegrable (fun θ => Real.cos θ * Real.sin θ)
        MeasureTheory.volume 0 (Real.pi / 2) :=
      (Real.continuous_cos.mul Real.continuous_sin).intervalIntegrable _ _
    have e : (fun θ => (1 - tb.specularAlbedo m.alpha (dvec3.dot m.Ng wo))
          * (1 - tb.specularAlbedo m.alpha (Real.cos θ))
          / (Real.pi * (1 - tb.specularAvgAlbedo m.alpha)) * Real.cos θ * Real.sin θ)
        = fun θ => (1 - tb.specularAlbedo m.alpha (dvec3.dot m.Ng wo))
          / (Real.pi * (1 - tb.specularAvgAlbedo m.alpha))
          * (Real.cos θ * Real.sin θ
            - tb.specularAlbedo m.alpha (Real.cos θ) * Real.cos θ * Real.sin θ) := by
      funext θ
      ring
    rw [e]
    exact (hcs.sub hint).const_mul _
  have hpoint : ∀ φ θ : ℝ, θ ∈ Set.uIcc (0 : ℝ) (Real.pi / 2) →
      (m.bxdf realLibm mf tb wo (dir θ φ)).x * Real.cos θ * Real.sin θ
        = (m.brdf_spec realLibm mf wo (dir θ φ)).x * Real.cos θ * Real.sin θ
          + (1 - tb.specularAlbedo m.alpha (dvec3.dot m.Ng wo))
            * (1 - tb.specularAlbedo m.alpha (Real.cos θ))
            / (Real.pi * (1 - tb.specularAvgAlbedo m.alpha)) * Real.cos θ * Real.sin θ := by
    intro φ θ hθ
    rw [Set.uIcc_of_le (by positivity)] at hθ
    have hcos : 0 ≤ Real.cos θ :=
      Real.cos_nonneg_of_mem_Icc ⟨by linarith [hθ.1], hθ.2⟩
    by_cases h0 : Real.cos θ = 0
    · simp only [h0, mul_zero, zero_mul, add_zero]
    · have hg : ¬ (dvec3.dot m.Ng wo ≤ 0 ∨ Real.cos θ ≤ 0) := by
        push_neg
        exact ⟨hwo, lt_of_le_of_ne hcos (Ne.symm h0)⟩
      simp only [MicrofacetCoupledConductorMaterial.bxdf, hdir, zero_lit, if_neg hg,
        dvec3.add_def, conductor_brdf_diff_no_fresnel mf tb m wo _ hF, dvec3.splat]
      ring
  have hbx : hemisphere dir (fun wi => (m.bxdf realLibm mf tb wo wi).x) = 1 := by
    have hinner : ∀ φ : ℝ, ∫ θ in (0 : ℝ)..(Real.pi / 2),
        (m.bxdf realLibm mf tb wo (dir θ φ)).x * Real.cos θ * Real.sin θ
        = (∫ θ in (0 : ℝ)..(Real.pi / 2),
            (m.brdf_spec realLibm mf wo (dir θ φ)).x * Real.cos θ * Real.sin θ)
          + (1 - tb.specularAlbedo m.alpha (dvec3.dot m.Ng wo)) / (2 * Real.pi) := by
      intro φ
      rw [intervalIntegral.integral_congr (hpoint φ),
        intervalIntegral.integral_add (hs1 φ) hci,
        hemisphere_compensation tb m.alpha _ hint havg hlt]
    simp only [hemisphere, hinner]
    rw [intervalIntegral.integral_add hs2 intervalIntegrable_const]
    have hs : (∫ φ in (0 : ℝ)..(2 * Real.pi), ∫ θ in (0 : ℝ)..(Real.pi / 2),
        (m.brdf_spec realLibm mf wo (dir θ φ)).x * Real.cos θ * Real.sin θ)
        = tb.specularAlbedo m.alpha (dvec3.dot m.Ng wo) := hspec
    rw [hs, intervalIntegral.integral_const, smul_eq_mul]
    field_simp
  -- the three channels coincide
  have hdy : ∀ wi, (m.brdf_diff realLibm mf tb wo wi).y = (m.brdf_diff realLibm mf tb wo wi).x := by
    intro wi; simp only [conductor_brdf_diff_no_fresnel mf tb m wo wi hF, dvec3.splat]
  have hdz : ∀ wi, (m.brdf_diff realLibm mf tb wo wi).z = (m.brdf_diff realLibm mf tb wo wi).x := by
    intro wi; simp only [conductor_brdf_diff_no_fresnel mf tb m wo wi hF, dvec3.splat]
  have hby : ∀ wi, (m.bxdf realLibm mf tb wo wi).y = (m.bxdf realLibm mf tb wo wi).x := by
    intro wi
    simp only [MicrofacetCoupledConductorMaterial.bxdf]
    split_ifs
    · rfl
    · simp only [dvec3.add_def, hdy, (conductor_brdf_spec_no_fresnel mf m wo wi hF).1]
  have hbz : ∀ wi, (m.bxdf realLibm mf tb wo wi).z = (m.bxdf realLibm mf tb wo wi).x := by
    intro wi
    simp only [MicrofacetCoupledConductorMaterial.bxdf]
    split_ifs
    · rfl
    · simp only [dvec3.add_def, hdz, (conductor_brdf_spec_no_fresnel mf m wo wi hF).2]
  refine ⟨⟨hdiff, ?_, ?_⟩, ⟨hbx, ?_, ?_⟩⟩
  · simp only [hdy]; exact hdiff
  · simp only [hdz]; exact hdiff
  · simp only [hby]; exact hbx
  · simp only [hbz]; exact hbx

theorem black_specular_lobe (m : MicrofacetCoupledConductorMaterial ℝ) (wo wi : dvec3 ℝ) :
    (MicrofacetCoupledConductorMaterial.brdf_spec realLibm (constMicrofacet 0 0) m wo wi).x
      = 0 := by
  simp only [MicrofacetCoupledConductorMaterial.brdf_spec, constMicrofacet, dvec3.splat,
    dvec3.scale_def]
  split_ifs <;> simp

/-- Instance of C1: a specular lobe that reflects nothing (`D = 0`) with
albedo tables 0, canonical frame; the compensation lobe alone integrates
to 1. -/
theorem furnace_test_witness :
    (0 : ℝ) < dvec3.dot canonicalNg ⟨0, 0, 1⟩ ∧
    (constTables realLibm 0 0 1).specularAvgAlbedo (1 / 2) < 1 ∧
    hemisphere (polarDir realLibm) (fun wi =>
      (MicrofacetCoupledConductorMaterial.bxdf realLibm (constMicrofacet 0 0)
        (constTables realLibm 0 0 1) ⟨canonicalNg, false, 1 / 2⟩ ⟨0, 0, 1⟩ wi).x) = 1 :=
  ⟨by norm_num [dvec3.dot, canonicalNg], by norm_num [constTables],
    (furnace_test (constMicrofacet 0 0) (constTables realLibm 0 0 1)
      ⟨canonicalNg, false, 1 / 2⟩ ⟨0, 0, 1⟩ (polarDir realLibm) rfl
      (by norm_num [dvec3.dot, canonicalNg])
      (by intro θ φ; simp [dvec3.dot, canonicalNg, polarDir, realLibm])
      (by simp [constTables])
      (by simp [constTables])
      (by norm_num [constTables])
      (by intro φ; simp [black_specular_lobe])
      (by simp [black_specular_lobe])
      (by simp [hemisphere, black_specular_lobe, constTables])).2.1⟩

/-! # Theorems: the Fresnel weighted compensation weight -/

theorem spec_kLambda_bounds (E F : K) (hE0 : 0 < E) (hE1 : E ≤ 1) (hF0 : 0 ≤ F)
    (hF1 : F ≤ 1) :
    0 ≤ spec_kLambda E F ∧ spec_kLambda E F ≤ 1 ∧ (F = 1 → spec_kLambda E F = 1) := by
  have hden : 0 < 1 - F * (1 - E) := by nlinarith
  refine ⟨?_, ?_, ?_⟩
  · exact div_nonneg (mul_nonneg hE0.le (sq_nonneg F)) hden.le
  · rw [spec_kLambda, div_le_one hden]
    nlinarith [mul_nonneg (sub_nonneg.2 hF1) (mul_nonneg hE0.le hF0)]
  · intro h
    rw [spec_kLambda, h]
    have : (1 : K) - 1 * (1 - E) = E := by ring
    rw [this, one_pow, mul_one, div_self (ne_of_gt hE0)]

/-- C12: with `useFresnel = true` each channel of `kLambda` is
`E·F²/(1 − F·(1 − E))` with `E = avgAlbedo(alpha)` and `F = fresnel_avg` of
that channel of gold; with `useFresnel = false` it is 1.  When `E` lies in
`(0, 1]` and the channel's `F` in `[0, 1]`, the Fresnel weighted channel lies
in `[0, 1]`, so it never exceeds the Fresnel disabled one, and it equals 1
when `F = 1`. -/
theorem kLambda_le_one (mf : Microfacet K) (tb : CoupledBRDF K)
    (m : MicrofacetCoupledConductorMaterial K) :
    (m.useFresnel = false → m.kLambda mf tb = ⟨1, 1, 1⟩) ∧
    (m.useFresnel = true →
      m.kLambda mf tb =
        ⟨spec_kLambda (tb.specularAvgAlbedo m.alpha) (mf.fresnel_avg 0.15557 3.6024),
         spec_kLambda (tb.specularAvgAlbedo m.alpha) (mf.fresnel_avg 0.42415 2.4721),
         spec_kLambda (tb.specularAvgAlbedo m.alpha) (mf.fresnel_avg 1.3821 1.9155)⟩ ∧
      (0 < tb.specularAvgAlbedo m.alpha → tb.specularAvgAlbedo m.alpha ≤ 1 →
        (0 ≤ mf.fresnel_avg 0.15557 3.6024 → mf.fresnel_avg 0.15557 3.6024 ≤ 1 →
          0 ≤ (m.kLambda mf tb).x ∧ (m.kLambda mf tb).x ≤ 1 ∧
          (mf.fresnel_avg 0.15557 3.6024 = 1 → (m.kLambda mf tb).x = 1)) ∧
        (0 ≤ mf.fresnel_avg 0.42415 2.4721 → mf.fresnel_avg 0.42415 2.4721 ≤ 1 →
          0 ≤ (m.kLambda mf tb).y ∧ (m.kLambda mf tb).y ≤ 1 ∧
          (mf.fresnel_avg 0.42415 2.4721 = 1 → (m.kLambda mf tb).y = 1)) ∧
        (0 ≤ mf.fresnel_avg 1.3821 1.9155 → mf.fresnel_avg 1.3821 1.9155 ≤ 1 →
          0 ≤ (m.kLambda mf tb).z ∧ (m.kLambda mf tb).z ≤ 1 ∧
          (mf.fresnel_avg 1.3821 1.9155 = 1 → (m.kLambda mf tb).z = 1)))) := by
  constructor
  · intro hF
    simp only [MicrofacetCoupledConductorMaterial.kLambda, hF, dvec3.splat]
    norm_num
  · intro hF
    have hk : m.kLambda mf tb =
        ⟨spec_kLambda (tb.specularAvgAlbedo m.alpha) (mf.fresnel_avg 0.15557 3.6024),
         spec_kLambda (tb.specularAvgAlbedo m.alpha) (mf.fresnel_avg 0.42415 2.4721),
         spec_kLambda (tb.specularAvgAlbedo m.alpha) (mf.fresnel_avg 1.3821 1.9155)⟩ := by
      simp only [MicrofacetCoupledConductorMaterial.kLambda, hF, if_true, dvec3.splat,
        dvec3.mul_def, dvec3.div_def, dvec3.sub_def, spec_kLambda,
        MicrofacetCoupledConductorMaterial.eta, MicrofacetCoupledConductorMaterial.k]
      norm_num
      refine ⟨?_, ?_, ?_⟩ <;> ring
    refine ⟨hk, ?_⟩
    intro hE0 hE1
    rw [hk]
    exact ⟨fun h0 h1 => spec_kLambda_bounds _ _ hE0 hE1 h0 h1,
      fun h0 h1 => spec_kLambda_bounds _ _ hE0 hE1 h0 h1,
      fun h0 h1 => spec_kLambda_bounds _ _ hE0 hE1 h0 h1⟩

/-- Instance of C12: average albedo `1/2` and average Fresnel reflectance
`1/2` in every channel. -/
theorem kLambda_le_one_witness :
    (0 : ℝ) < 1 / 2 ∧ (1 / 2 : ℝ) ≤ 1 ∧
    0 ≤ (MicrofacetCoupledConductorMaterial.kLambda
      ⟨fun _ _ _ => 1, fun _ _ _ _ => 1, fun _ _ _ => 1, fun _ _ => 1 / 2, fun _ => 1,
        fun _ _ _ _ => 1⟩
      (constTables realLibm (1 / 2) (1 / 2) 1) ⟨canonicalNg, true, 1 / 2⟩).x ∧
    (MicrofacetCoupledConductorMaterial.kLambda
      ⟨fun _ _ _ => 1, fun _ _ _ _ => 1, fun _ _ _ => 1, fun _ _ => 1 / 2, fun _ => 1,
        fun _ _ _ _ => 1⟩
      (constTables realLibm (1 / 2) (1 / 2) 1) ⟨canonicalNg, true, 1 / 2⟩).x ≤ 1 :=
  ⟨by norm_num, by norm_num,
    ((((kLambda_le_one
      ⟨fun _ _ _ => 1, fun _ _ _ _ => 1, fun _ _ _ => 1, fun _ _ => 1 / 2, fun _ => 1,
        fun _ _ _ _ => 1⟩
      (constTables realLibm (1 / 2) (1 / 2) 1) ⟨canonicalNg, true, 1 / 2⟩).2 rfl).2
        (by norm_num [constTables]) (by norm_num [constTables])).1
        (by norm_num) (by norm_num)).1,
    ((((kLambda_le_one
      ⟨fun _ _ _ => 1, fun _ _ _ _ => 1, fun _ _ _ => 1, fun _ _ => 1 / 2, fun _ => 1,
        fun _ _ _ _ => 1⟩
      (constTables realLibm (1 / 2) (1 / 2) 1) ⟨canonicalNg, true, 1 / 2⟩).2 rfl).2
        (by norm_num [constTables]) (by norm_num [constTables])).1
        (by norm_num) (by norm_num)).2.1⟩

/-! # Theorems: the sample loop of `bake` -/

theorem DivResult.isfinite_iff (r : DivResult K) :
    r.isfinite = true ↔ ∃ v, r = DivResult.finite v := by
  cases r <;> simp [DivResult.isfinite]

/-- C11: in every pass of the sample loop of `bake`, whatever `alpha`,
`cosTheta`, the Fresnel flag and the doubles obtained from the sampler and
the microfacet terms are (non-finite ones included), the argument of
`addSample` is a finite number; it is exactly 0 when `dot(wi, Ng) <= 0` and
when `brdf·cosθi/pdf` is not finite, and it is `brdf·cosθi/pdf` when
`dot(wi, Ng) <= 0` fails and that quantity is finite. -/
theorem bake_value_finite (include_fresnel_dielectrics : Bool) (cosTheta : K)
    (s : BakeSample K) :
    (∃ v, bake_value include_fresnel_dielectrics cosTheta s = DivResult.finite v) ∧
    (s.cos_term_wi.le 0 = true →
      bake_value include_fresnel_dielectrics cosTheta s = DivResult.finite 0) ∧
    ((bake_estimate include_fresnel_dielectrics cosTheta s).isfinite = false →
      bake_value include_fresnel_dielectrics cosTheta s = DivResult.finite 0) ∧
    (∀ v, s.cos_term_wi.le 0 = false →
      bake_estimate include_fresnel_dielectrics cosTheta s = DivResult.finite v →
      bake_value include_fresnel_dielectrics cosTheta s = DivResult.finite v) := by
  have h00 : (0.0 : K) = 0 := by norm_num
  refine ⟨?_, ?_, ?_, ?_⟩
  · simp only [bake_value, h00]
    by_cases hle : s.cos_term_wi.le 0 = true
    · simp [hle, DivResult.isfinite]
    · cases he : bake_estimate include_fresnel_dielectrics cosTheta s <;>
        simp [hle, DivResult.isfinite]
  · intro hle
    simp [bake_value, h00, hle, DivResult.isfinite]
  · intro hfin
    simp only [bake_value, h00]
    by_cases hle : s.cos_term_wi.le 0 = true
    · simp [hle, DivResult.isfinite]
    · simp [hle, hfin]
  · intro v hle he
    simp [bake_value, h00, hle, he, DivResult.isfinite]

theorem bake_estimate_regular :
    bake_estimate false (1 : ℝ)
      ⟨DivResult.finite (1 / 2), DivResult.finite 2, DivResult.finite 1, DivResult.finite 1,
        DivResult.finite 1⟩ = DivResult.finite (1 / 8) := by
  simp only [bake_estimate, DivResult.mul, DivResult.div, fdiv]
  norm_num

theorem bake_estimate_grazing :
    (bake_estimate false (0 : ℝ)
      ⟨DivResult.finite (1 / 2), DivResult.finite 2, DivResult.finite 1, DivResult.finite 1,
        DivResult.finite 1⟩).isfinite = false := by
  simp only [bake_estimate, DivResult.mul, DivResult.div, fdiv]
  norm_num [DivResult.mul, DivResult.div, DivResult.isfinite]

/-- Instance of C11: a sample below the surface with `alpha = 0` terms that
are NaN, a sample at `cosTheta = 0` whose estimate is infinite, and a
regular sample whose estimate `1/8` is passed on. -/
theorem bake_value_finite_witness :
    (DivResult.finite (0 : ℝ)).le 0 = true ∧
    bake_value false (0 : ℝ)
      ⟨DivResult.finite 0, DivResult.nan, DivResult.nan, DivResult.nan, DivResult.nan⟩
      = DivResult.finite 0 ∧
    (bake_estimate false (0 : ℝ)
      ⟨DivResult.finite (1 / 2), DivResult.finite 2, DivResult.finite 1, DivResult.finite 1,
        DivResult.finite 1⟩).isfinite = false ∧
    bake_value false (0 : ℝ)
      ⟨DivResult.finite (1 / 2), DivResult.finite 2, DivResult.finite 1, DivResult.finite 1,
        DivResult.finite 1⟩ = DivResult.finite 0 ∧
    (DivResult.finite (1 / 2 : ℝ)).le 0 = false ∧
    bake_value false (1 : ℝ)
      ⟨DivResult.finite (1 / 2), DivResult.finite 2, DivResult.finite 1, DivResult.finite 1,
        DivResult.finite 1⟩ = DivResult.finite (1 / 8) :=
  ⟨by simp [DivResult.le],
    (bake_value_finite false (0 : ℝ)
      ⟨DivResult.finite 0, DivResult.nan, DivResult.nan, DivResult.nan, DivResult.nan⟩).2.1
      (by simp [DivResult.le]),
    bake_estimate_grazing,
    (bake_value_finite false (0 : ℝ)
      ⟨DivResult.finite (1 / 2), DivResult.finite 2, DivResult.finite 1, DivResult.finite 1,
        DivResult.finite 1⟩).2.2.1 bake_estimate_grazing,
    by simp [DivResult.le],
    (bake_value_finite false (1 : ℝ)
      ⟨DivResult.finite (1 / 2), DivResult.finite 2, DivResult.finite 1, DivResult.finite 1,
        DivResult.finite 1⟩).2.2.2 (1 / 8) (by simp [DivResult.le]) bake_estimate_regular⟩

end rt
